import Mathlib

/-!
Verification development for the `lexparse` library (Go).

This file gives a shallow embedding of the library's streaming lexer/parser
runtime and proves properties of it:

* `Position`, `Token`, `GoError` — the value types (`lexer/lexer.go`).
* `LexerCore` / `CustomLexer` — the buffered rune scanner and the custom
  lexer runtime (`lexer/scanner.go`, `CustomLexer`).  The underlying
  `runeio.RuneReader` over a `bufio.Reader` is modelled as the list of
  remaining runes, fully buffered (`Buffered()` returns the remaining
  length); a pure in-memory input never produces a read error other than
  `io.EOF`, which matches the library's tests (they drive the lexer from
  `strings.NewReader`).
* `composeErr` — the error composition of the driver (`lexparse.go`,
  `LexParse`).
* `Parser` — the parser runtime (`parser.go`).  Go's pointer-linked
  `Node[V]` graph is modelled as an explicit heap: a list of `PNode`
  records indexed by allocation order, with parent/child links as indices.

Go `int` is modelled as `Int`; Go strings are modelled as rune lists
(`List Char`), with `strBytes` giving the UTF-8 byte length where the
source uses byte-length (`len(s)`).
-/

set_option linter.unusedVariables false

namespace LexParse

/-- Source position: `lexer.Position` with fields `Filename`, `Offset`,
`Line`, `Column` (Go `int`s, so `Int` here). -/
structure Position where
  filename : String
  offset : Int
  line : Int
  column : Int
deriving Repr, DecidableEq

/-- The position a fresh `CustomLexer` starts at (`NewCustomLexer`):
offset 0, line 1, column 1. -/
def posInit : Position := { filename := "", offset := 0, line := 1, column := 1 }

/-- The zero value of the Go struct `Position`: all fields zero.  This is
what `var start Position` denotes in `Parser.NewNode`. -/
def posZero : Position := { filename := "", offset := 0, line := 0, column := 0 }

/-- `lexer.TokenType` is a defined integer type. -/
abbrev TokenType := Int

/-- `lexer.TokenTypeEOF` is `-1` (the value of `text/scanner.EOF`). -/
def tokenTypeEOF : TokenType := -1

/-- `lexer.Token`: type, literal value, start and end positions.  `End` is
a reserved word in Lean, hence the field name `endPos`. -/
structure Token where
  type : TokenType
  value : List Char
  start : Position
  endPos : Position
deriving Repr, DecidableEq

/-- A Go error value, observed through the predicates the repository
applies to errors: `errors.Is(err, io.EOF)` and
`errors.Is(err, context.Canceled)`.  `msg` separates distinct errors. -/
structure GoError where
  isEOF : Bool
  isCanceled : Bool
  msg : String
deriving Repr, DecidableEq

/-- `io.EOF`. -/
def ioEOF : GoError := { isEOF := true, isCanceled := false, msg := "EOF" }

/-- `context.Canceled`. -/
def ctxCanceled : GoError :=
  { isEOF := false, isCanceled := true, msg := "context canceled" }

/-- `errors.Is(err, io.EOF)` for a possibly-nil error (`errors.Is(nil, _)`
is false). -/
def errIsEOF : Option GoError → Bool
  | none => false
  | some e => e.isEOF

/-- `errors.Is(err, context.Canceled)` for a possibly-nil error. -/
def errIsCanceled : Option GoError → Bool
  | none => false
  | some e => e.isCanceled

/-- UTF-8 byte length of a rune string — Go's `len(s)` on a `string`. -/
def strBytes (s : List Char) : Nat := (s.map Char.utf8Size).sum

/-! ## The scanner state (`CustomLexer` sans its `state` field)

`CustomLexer.state` holds a `LexState`, whose `Run` receives the lexer
itself; to satisfy strict positivity the state field is split off, and
`LexerCore` is the rest: token buffer, reader, builder, positions, error. -/

/-- The mutable scanner state of `CustomLexer`: `buf` (emitted tokens not
yet returned), the remaining `input` of the reader, the current-token
builder `b`, the read position `pos`, the token-start `cursor`, and the
sticky first error `err`. -/
structure LexerCore where
  buf : List Token
  input : List Char
  b : List Char
  pos : Position
  cursor : Position
  err : Option GoError
deriving Repr, DecidableEq

/-- A fresh scanner over `input` (`NewCustomLexer`): both positions at
offset 0, line 1, column 1. -/
def mkCore (input : List Char) : LexerCore :=
  { buf := [], input := input, b := [], pos := posInit, cursor := posInit,
    err := none }

/-- `CustomLexer.Width`: `l.pos.Offset - l.cursor.Offset`. -/
def LexerCore.width (c : LexerCore) : Int := c.pos.offset - c.cursor.offset

/-- `CustomLexer.Token`: the current builder contents. -/
def LexerCore.tokenVal (c : LexerCore) : List Char := c.b

/-- `CustomLexer.setErr`: record `e` only if no error is recorded yet and
`e` is not (wrapping) `io.EOF`. -/
def LexerCore.setErr (c : LexerCore) (e : Option GoError) : LexerCore :=
  if c.err = none ∧ errIsEOF e = false then { c with err := e } else c

/-- `CustomLexer.newToken`: a token spanning cursor..pos with the builder
contents as value. -/
def LexerCore.newToken (c : LexerCore) (typ : TokenType) : Token :=
  { type := typ, value := c.b, start := c.cursor, endPos := c.pos }

/-- `CustomLexer.Ignore`: move the token cursor to the read position and
reset the builder. -/
def LexerCore.ignore (c : LexerCore) : LexerCore :=
  { c with cursor := c.pos, b := [] }

/-- `CustomLexer.PeekN`: up to `n` runes of lookahead.  Returns `nil` when
an error is already recorded.  The underlying `Peek` reports `io.EOF` when
it returns fewer runes than requested, which `setErr` drops, so on the
pure in-memory reader the state is unchanged. -/
def LexerCore.peekN (c : LexerCore) (n : Int) : List Char :=
  if c.err = none then c.input.take n.toNat else []

/-- `CustomLexer.Peek`: single-rune lookahead; `none` is the `EOF`
sentinel rune. -/
def LexerCore.peek (c : LexerCore) : Option Char :=
  (c.peekN 1).head?

/-- Per-rune position update, exactly as in `CustomLexer.NextRune` (and,
cumulatively, the per-rune loop in `CustomLexer.advance`): offset and
column advance by one rune, a newline additionally bumps the line and
resets the column to 1. -/
def posAdv (p : Position) (ch : Char) : Position :=
  let p1 : Position :=
    { p with offset := p.offset + 1, column := p.column + 1 }
  if ch = '\n' then { p1 with line := p1.line + 1, column := 1 } else p1

/-- `CustomLexer.NextRune`: read one rune, appending it to the builder and
advancing the read position while leaving the token cursor.  `none` is the
`EOF` sentinel; a short read reports `io.EOF`, which `setErr` drops. -/
def LexerCore.nextRune (c : LexerCore) : Option Char × LexerCore :=
  if c.err = none then
    match c.input with
    | [] => (none, c)
    | ch :: rest =>
        (some ch,
          { c with input := rest, pos := posAdv c.pos ch, b := c.b ++ [ch] })
  else (none, c)

/-- The `for n > 0` loop of `CustomLexer.advance`.  `Buffered()` is the
remaining input length in this model; `Peek` past the end returns the
whole remainder together with `io.EOF`, which ends the loop with the
count advanced so far (`setErr` drops the `io.EOF`; the position, line
and column counters are updated for every rune actually discarded, and
the runes are appended to the builder unless discarding).  Each
iteration that continues the loop consumes at least one rune and
decreases `n` by that amount, so fuel `n.toNat` runs the loop to
completion. -/
def advanceLoop : Nat → LexerCore → Int → Bool → Nat × LexerCore
  | 0, c, _, _ => (0, c)
  | fuel + 1, c, n, dsc =>
    if 0 < n then
      let buffered : Int := (c.input.length : Int)
      let toRead0 : Int := if n < buffered then n else buffered
      let toRead : Int := if toRead0 = 0 then (if 16 < n then 16 else n) else toRead0
      let rn := c.input.take toRead.toNat
      let d := rn.length
      let c1 : LexerCore :=
        { c with input := c.input.drop d,
                 pos := rn.foldl posAdv c.pos,
                 b := if dsc then c.b else c.b ++ rn }
      if d < toRead.toNat then (d, c1)
      else
        let n' := n - (d : Int)
        if 0 < n' then
          let r := advanceLoop fuel c1 n' dsc
          (d + r.1, r.2)
        else (d, c1)
    else (0, c)

/-- `CustomLexer.advance`: no-op after a sticky error; otherwise run the
loop, and when `discard` is set perform the deferred `Ignore` on exit. -/
def LexerCore.advance (c : LexerCore) (n : Int) (dsc : Bool) : Nat × LexerCore :=
  if c.err = none then
    let r := advanceLoop n.toNat c n dsc
    (r.1, if dsc then r.2.ignore else r.2)
  else (0, c)

/-- `CustomLexer.AdvanceN`. -/
def LexerCore.advanceN (c : LexerCore) (n : Int) : Nat × LexerCore :=
  c.advance n false

/-- `CustomLexer.Advance`: advance one rune, reporting whether it moved. -/
def LexerCore.advance1 (c : LexerCore) : Bool × LexerCore :=
  let r := c.advance 1 false
  (r.1 == 1, r.2)

/-- `CustomLexer.DiscardN`. -/
def LexerCore.discardN (c : LexerCore) (n : Int) : Nat × LexerCore :=
  c.advance n true

/-- `CustomLexer.Discard`: discard one rune, reporting whether it moved. -/
def LexerCore.discard1 (c : LexerCore) : Bool × LexerCore :=
  let r := c.discardN 1
  (r.1 == 1, r.2)

/-- The shared `maxLen` computation of `Find` and `DiscardTo`: the
largest byte length (`len(q[i])`, UTF-8 bytes) of any candidate. -/
def findMaxLen (q : List (List Char)) : Nat :=
  q.foldl (fun m s => if m < strBytes s then strBytes s else m) 0

/-- The search loop of `CustomLexer.Find`: peek `maxLen` runes; return
the first candidate that is a prefix of the peeked runes
(`strings.HasPrefix` on the UTF-8 encodings agrees with rune-list
prefixing); otherwise consume one rune with `NextRune` and retry.  A
fuel of `input.length + 1` is enough, since every retry consumes a
rune and the loop stops when the peek comes back empty. -/
def findLoop (q : List (List Char)) (maxLen : Nat) :
    Nat → LexerCore → List Char × LexerCore
  | 0, c => ([], c)
  | fuel + 1, c =>
    let rns := c.peekN (maxLen : Int)
    if rns.length = 0 then ([], c)
    else
      match q.find? (fun cand => cand.isPrefixOf rns) with
      | some cand => (cand, c)
      | none => findLoop q maxLen fuel (c.nextRune).2

/-- `CustomLexer.Find`: returns the matched candidate, or `[]` (Go `""`)
when no match was found. -/
def LexerCore.find (c : LexerCore) (q : List (List Char)) : List Char × LexerCore :=
  let maxLen := findMaxLen q
  if maxLen = 0 then ([], c)
  else findLoop q maxLen (c.input.length + 1) c

/-- The window scan of one `DiscardTo` iteration: the first index `i`
with `i < len(rns) - maxLen + 1` (Go `int` arithmetic, so no window when
`len(rns) < maxLen`) such that some candidate is a prefix of
`rns[i:i+maxLen]`, together with that first candidate. -/
def firstWindowMatch (rns : List Char) (q : List (List Char)) (maxLen : Nat) :
    Option (Nat × List Char) :=
  (List.range ((rns.length : Int) - (maxLen : Int) + 1).toNat).findSome?
    (fun i =>
      (q.find? (fun cand => cand.isPrefixOf ((rns.drop i).take maxLen))).map
        (fun cand => (i, cand)))

/-- The search loop of `CustomLexer.DiscardTo`: peek
`max(Buffered(), maxLen)` runes (`Buffered()` is the remaining length
here), scan the windows; on a match discard the runes before it and
return the candidate; otherwise discard the runes that can no longer
begin a match (at least one) and retry.  Every retry discards at least
one rune or fails advancing at end of input, so `input.length + 1` is
enough fuel. -/
def discardToLoop (q : List (List Char)) (maxLen : Nat) :
    Nat → LexerCore → List Char × LexerCore
  | 0, c => ([], c)
  | fuel + 1, c =>
    let bufS : Int :=
      if (c.input.length : Int) < (maxLen : Int) then (maxLen : Int)
      else (c.input.length : Int)
    let rns := c.peekN bufS
    match firstWindowMatch rns q maxLen with
    | some im =>
        let r := c.advance (im.1 : Int) true
        if r.1 < im.1 then ([], r.2) else (im.2, r.2)
    | none =>
        let toDiscard0 : Int := (rns.length : Int) - (maxLen : Int) + 1
        let toDiscard : Int := if toDiscard0 ≤ 0 then 1 else toDiscard0
        let r := c.advance toDiscard true
        if (r.1 : Int) < toDiscard then ([], r.2)
        else discardToLoop q maxLen fuel r.2

/-- `CustomLexer.DiscardTo`: returns the matched candidate, or `[]`
(Go `""`) when no match was found. -/
def LexerCore.discardTo (c : LexerCore) (q : List (List Char)) : List Char × LexerCore :=
  let maxLen := findMaxLen q
  if maxLen = 0 then ([], c)
  else discardToLoop q maxLen (c.input.length + 1) c

/-- `CustomLexer.Emit`: no-op returning `nil` after an error; otherwise
append `newToken typ` to the token buffer and `Ignore`. -/
def LexerCore.emit (c : LexerCore) (typ : TokenType) : Option Token × LexerCore :=
  if c.err = none then
    let t := c.newToken typ
    (some t, LexerCore.ignore { c with buf := c.buf ++ [t] })
  else (none, c)

/-! ## The custom lexer runtime (`CustomLexer.NextToken`)

A `LexState.Run` receives the lexer and may drive it arbitrarily (peek,
advance, discard, emit, fail...), so a state is modelled as an arbitrary
function from the scanner state to (next state, error, new scanner
state) — the supertype of everything Go user states can do through the
lexer's methods. -/

/-- A user lex state: `Run(ctx, l) (LexState, error)`.  The context is
not passed on: the runtime checks cancellation itself before each `Run`,
and a state that reacts to the context is still just some function of
the scanner state. -/
inductive LexState where
  | mk (run : LexerCore → Option LexState × Option GoError × LexerCore)

/-- Apply a state's `Run`. -/
def LexState.run : LexState → LexerCore → Option LexState × Option GoError × LexerCore
  | .mk f, c => f c

/-- The full `CustomLexer`: scanner state plus current `LexState`
(`nil` when the state machine has finished). -/
structure CustomLexer where
  core : LexerCore
  state : Option LexState

/-- `CustomLexer.Err`. -/
def CustomLexer.lexErr (l : CustomLexer) : Option GoError := l.core.err

/-- The body of `CustomLexer.NextToken` after the initial sticky-error
check: while the buffer is empty and a state remains, check the context
(recording `ctx.Err()` and returning an `EOF` token when done), then run
the state, record its error (returning an `EOF` token if an error is now
recorded).  Then return the first buffered token, dequeuing it unless it
is an `EOF` token; with no state and no buffered token, record `io.EOF`
directly (`l.err = io.EOF`) and return an `EOF` token.  `fuel` bounds
the number of state invocations; `none` means the Go loop would still be
running (a state made no progress), which no theorem below relies on. -/
def nextTokenLoop (ctx : Option GoError) :
    Nat → LexerCore → Option LexState → Option (Token × CustomLexer)
  | fuel, c, st =>
    match c.buf with
    | t :: rest =>
        if t.type ≠ tokenTypeEOF then some (t, ⟨{ c with buf := rest }, st⟩)
        else some (t, ⟨c, st⟩)
    | [] =>
      match st with
      | none =>
          let c1 : LexerCore := { c with err := some ioEOF }
          some (c1.newToken tokenTypeEOF, ⟨c1, none⟩)
      | some s =>
        match fuel with
        | 0 => none
        | fuel + 1 =>
          match ctx with
          | some e =>
              let c1 := c.setErr (some e)
              some (c1.newToken tokenTypeEOF, ⟨c1, some s⟩)
          | none =>
              let r := s.run c
              let c1 := r.2.2.setErr r.2.1
              if c1.err ≠ none then some (c1.newToken tokenTypeEOF, ⟨c1, r.1⟩)
              else nextTokenLoop ctx fuel c1 r.1

/-- `CustomLexer.NextToken`: with a sticky error, immediately an `EOF`
token; otherwise the dequeue/run loop.  `ctx` is `none` while the
context is live and `some e` (with `e = ctx.Err()`) once it is done. -/
def CustomLexer.nextToken (l : CustomLexer) (ctx : Option GoError) (fuel : Nat) :
    Option (Token × CustomLexer) :=
  if l.core.err = none then nextTokenLoop ctx fuel l.core l.state
  else some (l.core.newToken tokenTypeEOF, l)

/-- The stream of the next `k` tokens: repeated `NextToken` calls (each
with the same state-invocation fuel), stopping early only if a call
diverges. -/
def nextTokens (ctx : Option GoError) (fuel : Nat) :
    Nat → CustomLexer → List Token
  | 0, _ => []
  | k + 1, l =>
    match l.nextToken ctx fuel with
    | none => []
    | some r => r.1 :: nextTokens ctx fuel k r.2

/-! ## The driver's error composition (`LexParse`, lexparse.go) -/

/-- The error composition after `LexParse` joins its two goroutines:
start from the lexer error; if it is nil, wraps `context.Canceled`, or
wraps `io.EOF`, report the parser error instead — otherwise report the
lexer error. -/
def composeErr (lexError parseError : Option GoError) : Option GoError :=
  if lexError = none ∨ errIsCanceled lexError = true ∨ errIsEOF lexError = true
  then parseError else lexError

/-! ## The parser runtime (`parser.go`)

Go's `Node[V]` is a pointer structure with a parent back-reference; it
is modelled as an explicit heap — a list of `PNode` records indexed by
allocation order — with parent/children links as heap indices.
`Parser.tokens` (a `TokenSource`, whose `NextToken` always yields a
token) is modelled as a total stream `Nat → Token` with a read index.
The state stack only drives `Parser.Parse` and is not modelled; none of
the tree operations consult it. -/

/-- One `Node[V]`: value, start position, parent back-reference and
ordered children, the links as heap indices. -/
structure PNode (V : Type) where
  parent : Option Nat
  children : List Nat
  value : V
  start : Position
deriving Repr, DecidableEq

/-- The parser state: the node heap, the indices of `root` and of the
current node, the current and peeked tokens, and the token source. -/
structure Parser (V : Type) where
  heap : List (PNode V)
  root : Nat
  node : Nat
  token : Option Token
  next : Option Token
  stream : Nat → Token
  sIdx : Nat

/-- `NewParser`: a single root node with the zero value of `V` and start
position `(0,1,1)`; the current node is the root, no token consumed. -/
def NewParser (V : Type) [Inhabited V] (stream : Nat → Token) : Parser V :=
  { heap := [{ parent := none, children := [], value := default,
               start := { filename := "", offset := 0, line := 1, column := 1 } }],
    root := 0, node := 0, token := none, next := none,
    stream := stream, sIdx := 0 }

/-- `Parser.Peek`: return the buffered one-token lookahead, or pull one
token from the source into it. -/
def Parser.peekT {V : Type} (p : Parser V) : Token × Parser V :=
  match p.next with
  | some t => (t, p)
  | none =>
      let t := p.stream p.sIdx
      (t, { p with next := some t, sIdx := p.sIdx + 1 })

/-- `Parser.Next`: consume the peeked token, making it the current
token. -/
def Parser.nextT {V : Type} (p : Parser V) : Token × Parser V :=
  let r := p.peekT
  (r.1, { r.2 with next := none, token := some r.1 })

/-- `Parser.NewNode`: an orphan node valued `v` whose start is the
current token's start, or the zero `Position` (`var start Position`)
when no token has been consumed yet. -/
def Parser.newNode {V : Type} (p : Parser V) (v : V) : PNode V :=
  { parent := none, children := [],
    value := v,
    start := match p.token with
             | some t => t.start
             | none => posZero }

/-- `Parser.Node`: allocate `newNode v`, append it to the current node's
children and set its parent; the current node does not move.  Returns
the new node's index. -/
def Parser.nodeOp {V : Type} (p : Parser V) (v : V) : Nat × Parser V :=
  let idx := p.heap.length
  let n : PNode V := { p.newNode v with parent := some p.node }
  let heap :=
    match p.heap.get? p.node with
    | some cur => (p.heap.set p.node { cur with children := cur.children ++ [idx] }) ++ [n]
    | none => p.heap ++ [n]
  (idx, { p with heap := heap })

/-- `Parser.Push`: like `Node`, but the current node moves to the new
node. -/
def Parser.push {V : Type} (p : Parser V) (v : V) : Nat × Parser V :=
  let r := p.nodeOp v
  (r.1, { r.2 with node := r.1 })

/-- `Parser.Climb`: move the current node to its parent (no-op at a node
with no parent); returns the previous current node. -/
def Parser.climb {V : Type} (p : Parser V) : Nat × Parser V :=
  match (p.heap.get? p.node).bind PNode.parent with
  | some parIdx => (p.node, { p with node := parIdx })
  | none => (p.node, p)

/-- `Parser.SetRoot`: install the given node as root and current node. -/
def Parser.setRoot {V : Type} (p : Parser V) (n : Nat) : Parser V :=
  { p with root := n, node := n }

/-- Replace the first occurrence of `a` in `l` by `b` (the
`for ... { if childs[i] == old { childs[i] = new; break } }` splice). -/
def replaceFirst (l : List Nat) (a b : Nat) : List Nat :=
  match l with
  | [] => []
  | x :: xs => if x = a then b :: xs else x :: replaceFirst xs a b

/-- One step of the child-reparenting loop of `Parser.Replace`
(`node.Children[i].Parent = node`): point `cIdx`'s parent at `newIdx`. -/
def setParent {V : Type} (newIdx : Nat) (h : List (PNode V)) (cIdx : Nat) :
    List (PNode V) :=
  match h.get? cIdx with
  | some cn => h.set cIdx { cn with parent := some newIdx }
  | none => h

/-- `Parser.Replace`: build `newNode v`; give it the old current node's
parent and splice it over the old node in that parent's child list;
transfer the old node's children in order, reparenting each to the new
node; if the old node was the root, the new node becomes the root; the
current node moves to the new node.  Returns the old node's value
(`none` only on a dangling current index, where Go would fault). -/
def Parser.replace {V : Type} (p : Parser V) (v : V) : Option V × Parser V :=
  match p.heap.get? p.node with
  | none => (none, p)
  | some old =>
    let newIdx := p.heap.length
    let n : PNode V := { p.newNode v with parent := old.parent, children := old.children }
    let heap1 :=
      match old.parent with
      | some parIdx =>
          match p.heap.get? parIdx with
          | some par =>
              p.heap.set parIdx { par with children := replaceFirst par.children p.node newIdx }
          | none => p.heap
      | none => p.heap
    let heap2 := old.children.foldl (setParent newIdx) heap1
    let heap3 := heap2 ++ [n]
    let root' := if p.node = p.root then newIdx else p.root
    (some old.value, { p with heap := heap3, root := root', node := newIdx })

/-! ## Concrete fixtures used by witnesses and counterexamples -/

/-- A lexer-side read failure (neither `io.EOF` nor cancellation). -/
def readFailErr : GoError := { isEOF := false, isCanceled := false, msg := "read failed" }

/-- A parser-side failure (neither `io.EOF` nor cancellation). -/
def parseFailErr : GoError := { isEOF := false, isCanceled := false, msg := "parse failed" }

/-- A scanner state with a recorded (sticky) non-EOF error. -/
def coreWithErr : LexerCore := { mkCore ['a', 'b'] with err := some readFailErr }

/-- A lexer with a recorded sticky error and a queued token. -/
def lexerWithErr : CustomLexer :=
  ⟨{ coreWithErr with buf := [{ type := 7, value := ['a'], start := posInit, endPos := posInit }] },
   none⟩

/-- A lex state that finishes immediately without consuming or emitting. -/
def doneState : LexState := .mk (fun c => (none, none, c))

/-- A lexer over empty input whose single state finishes immediately. -/
def emptyDoneLexer : CustomLexer := ⟨mkCore [], some doneState⟩

/-- A lexer whose state machine already finished (`state = nil`). -/
def exhaustedLexer : CustomLexer := ⟨mkCore [], none⟩

/-- A lex state that advances two runes (keeping them in the builder) and
then finishes, without emitting and without `Ignore`. -/
def adv2State : LexState := .mk (fun c => (none, none, (c.advanceN 2).2))

/-- A lexer over `"ab"` driven by `adv2State`. -/
def adv2Lexer : CustomLexer := ⟨mkCore ['a', 'b'], some adv2State⟩

/-- A token used to feed concrete parsers. -/
def tokA : Token :=
  { type := 7, value := ['a'],
    start := { filename := "", offset := 3, line := 2, column := 1 },
    endPos := { filename := "", offset := 4, line := 2, column := 2 } }

/-- A fresh parser over a constant token source. -/
def freshParser : Parser String := NewParser String (fun _ => tokA)

/-! ## C1 — driver error composition -/

/-- Claim C1 (counterexample): a run in which the lexer recorded a real
read error and the parser also failed.  `LexParse` returns the lexer
error, not the parser error, refuting "for every run in which the parser
returns a non-nil error, LexParse returns that parser error". -/
theorem composeErr_not_parser_preferred :
    composeErr (some readFailErr) (some parseFailErr) ≠ some parseFailErr := by
  decide

/-- Claim C1 (amended): when the lexer error is nil, wraps cancellation,
or wraps `io.EOF`, `LexParse` returns the parser error; otherwise it
returns the lexer error — even when the parser error is non-nil. -/
theorem composeErr_spec (lexError parseError : Option GoError) :
    (lexError = none ∨ errIsCanceled lexError = true ∨ errIsEOF lexError = true →
      composeErr lexError parseError = parseError) ∧
    (lexError ≠ none → errIsCanceled lexError = false → errIsEOF lexError = false →
      composeErr lexError parseError = lexError) := by
  constructor
  · intro h
    simp [composeErr, h]
  · intro h1 h2 h3
    have : ¬(lexError = none ∨ errIsCanceled lexError = true ∨ errIsEOF lexError = true) := by
      simp [h1, h2, h3]
    simp [composeErr, this]

/-- Claim C1 (witness for the amended theorem). -/
theorem composeErr_spec_witness :
    composeErr (some ioEOF) (some parseFailErr) = some parseFailErr ∧
    composeErr (some readFailErr) (some parseFailErr) = some readFailErr := by
  exact ⟨(composeErr_spec (some ioEOF) (some parseFailErr)).1 (by decide),
         (composeErr_spec (some readFailErr) (some parseFailErr)).2
           (by decide) (by decide) (by decide)⟩

/-! ## C2 — `NewNode` start positions -/

/-- Claim C2 (counterexample): on a fresh parser (no token consumed yet)
`NewNode` uses the zero value of `Position` — offset 0, line 0, column 0
— not the claimed default `(0,1,1)`. -/
theorem newNode_start_before_next :
    (freshParser.newNode "x").start ≠
      { filename := "", offset := 0, line := 1, column := 1 } := by
  decide

/-- Claim C2 (amended): a node created by `NewNode` before the first
`Next` has the zero `Position` (offset 0, line 0, column 0 — the
parser's root, by contrast, is created at `(0,1,1)`); after a `Next`, it
has the start position of the most recently consumed token. -/
theorem newNode_start_spec {V : Type} (p : Parser V) (v : V) :
    (p.token = none → (p.newNode v).start = posZero) ∧
    (∀ t, p.token = some t → (p.newNode v).start = t.start) ∧
    ((p.nextT.2.newNode v).start = p.nextT.1.start) := by
  refine ⟨fun h => ?_, fun t h => ?_, ?_⟩
  · simp [Parser.newNode, h]
  · simp [Parser.newNode, h]
  · cases hn : p.next <;> simp [Parser.newNode, Parser.nextT, Parser.peekT, hn]

/-- Claim C2 (witness for the amended theorem). -/
theorem newNode_start_spec_witness :
    (freshParser.newNode "x").start = posZero ∧
    ((freshParser.nextT.2.newNode "x").start = freshParser.nextT.1.start) := by
  exact ⟨(newNode_start_spec freshParser "x").1 rfl,
         (newNode_start_spec freshParser "x").2.2⟩

/-! ## C9 — `Emit` after a sticky error -/

/-- Claim C9: once a sticky error is recorded, `Emit` returns `nil` and
the lexer state — pending-token queue, builder, cursor and read position
included — is unchanged. -/
theorem emit_after_error (c : LexerCore) (typ : TokenType) (h : c.err ≠ none) :
    c.emit typ = (none, c) := by
  simp [LexerCore.emit, h]

/-- Claim C9 (witness). -/
theorem emit_after_error_witness : coreWithErr.emit 3 = (none, coreWithErr) :=
  emit_after_error coreWithErr 3 (by decide)

/-! ## C10 — `Discard`/`DiscardN` always reset the token builder -/

/-- Claim C10: with no sticky error recorded, any `DiscardN n` (for any
`n`, including `n ≤ 0` and short discards at end of input) leaves the
builder empty and the token cursor at the read position, so `Width() = 0`
and `Token() = ""` — the deferred `Ignore` runs on every exit path. -/
theorem discardN_resets (c : LexerCore) (n : Int) (h : c.err = none) :
    (c.discardN n).2.b = [] ∧ (c.discardN n).2.cursor = (c.discardN n).2.pos ∧
    (c.discardN n).2.width = 0 ∧ (c.discardN n).2.tokenVal = [] := by
  simp [LexerCore.discardN, LexerCore.advance, h, LexerCore.ignore,
        LexerCore.width, LexerCore.tokenVal]

/-- Claim C10 (witness): a discard past the end of a two-rune input with
a partially accumulated token. -/
theorem discardN_resets_witness :
    (((mkCore ['a', 'b']).advanceN 1).2.discardN 5).2.b = [] ∧
    (((mkCore ['a', 'b']).advanceN 1).2.discardN 5).2.cursor =
      (((mkCore ['a', 'b']).advanceN 1).2.discardN 5).2.pos ∧
    (((mkCore ['a', 'b']).advanceN 1).2.discardN 5).2.width = 0 ∧
    (((mkCore ['a', 'b']).advanceN 1).2.discardN 5).2.tokenVal = [] :=
  discardN_resets ((mkCore ['a', 'b']).advanceN 1).2 5 (by decide)

/-! ## C5 — after the first error, only `EOF` tokens -/

/-- One step: with a sticky error recorded, `NextToken` returns an `EOF`
token immediately and leaves the lexer (hence the error) unchanged —
queued tokens are not consulted. -/
theorem nextToken_after_error (l : CustomLexer) (ctx : Option GoError) (fuel : Nat)
    (h : l.core.err ≠ none) :
    l.nextToken ctx fuel = some (l.core.newToken tokenTypeEOF, l) := by
  simp [CustomLexer.nextToken, h]

/-- Claim C5: once the first error is recorded, every subsequent
`NextToken` call yields only tokens of type `EOF` — non-EOF tokens are
never produced again, even if tokens were already queued by an earlier
state invocation. -/
theorem nextTokens_after_error (ctx : Option GoError) (fuel k : Nat) (l : CustomLexer)
    (h : l.core.err ≠ none) :
    (nextTokens ctx fuel k l).all (fun t => t.type == tokenTypeEOF) = true := by
  induction k with
  | zero => simp [nextTokens]
  | succ k ih =>
    rw [nextTokens, nextToken_after_error l ctx fuel h]
    simp only [List.all_cons, Bool.and_eq_true]
    exact ⟨by simp [LexerCore.newToken], ih⟩

/-- Claim C5 (witness): a lexer with a queued non-EOF token and a sticky
error still yields only `EOF` tokens. -/
theorem nextTokens_after_error_witness :
    (nextTokens none 1 3 lexerWithErr).all (fun t => t.type == tokenTypeEOF) = true :=
  nextTokens_after_error none 1 3 lexerWithErr (by decide)

/-! ## C4 — `Err` after exhaustion -/

/-- Claim C4 (counterexample): after the state machine is exhausted (the
state returns no successor and nothing is buffered), `NextToken` records
`io.EOF` itself and `Err` returns it — refuting "err() never returns the
end-of-file condition itself, even after ... the state machine is
exhausted". -/
theorem err_after_exhaustion :
    (emptyDoneLexer.nextToken none 1).map (fun r => r.2.lexErr) = some (some ioEOF) := by
  decide

/-- Claim C4 (amended): `setErr` records only the first non-EOF error —
an error wrapping `io.EOF` is never recorded through it, and a recorded
error is never displaced — but on normal exhaustion `NextToken` assigns
the `io.EOF` sentinel to the sticky error directly, so `Err` then
returns `io.EOF` (the driver filters it out when composing errors). -/
theorem err_first_nonEOF (c : LexerCore) (e : GoError) (e' : Option GoError)
    (l : CustomLexer) (ctx : Option GoError) (fuel : Nat) :
    (e.isEOF = true → c.setErr (some e) = c) ∧
    (c.err = none → e.isEOF = false → (c.setErr (some e)).err = some e) ∧
    (c.err ≠ none → (c.setErr e').err = c.err) ∧
    (l.core.err = none → l.core.buf = [] → l.state = none →
      (l.nextToken ctx fuel).map (fun r => r.2.lexErr) = some (some ioEOF)) := by
  refine ⟨fun h => ?_, fun h1 h2 => ?_, fun h => ?_, fun h1 h2 h3 => ?_⟩
  · simp [LexerCore.setErr, errIsEOF, h]
  · simp [LexerCore.setErr, errIsEOF, h1, h2]
  · simp [LexerCore.setErr, h]
  · simp [CustomLexer.nextToken, h1, nextTokenLoop, h2, h3, CustomLexer.lexErr]

/-- Claim C4 (witness for the amended theorem). -/
theorem err_first_nonEOF_witness :
    (mkCore []).setErr (some ioEOF) = mkCore [] ∧
    ((mkCore []).setErr (some readFailErr)).err = some readFailErr ∧
    (coreWithErr.setErr (some ctxCanceled)).err = coreWithErr.err ∧
    (exhaustedLexer.nextToken none 0).map (fun r => r.2.lexErr) = some (some ioEOF) := by
  refine ⟨(err_first_nonEOF (mkCore []) ioEOF none exhaustedLexer none 0).1 (by decide),
          (err_first_nonEOF (mkCore []) readFailErr none exhaustedLexer none 0).2.1
            (by decide) (by decide),
          (err_first_nonEOF coreWithErr ctxCanceled (some ctxCanceled)
             exhaustedLexer none 0).2.2.1 (by decide),
          ?_⟩
  · have h4 := (err_first_nonEOF (mkCore []) ioEOF none exhaustedLexer none 0).2.2.2
    exact h4 rfl rfl rfl

/-! ## C3 — the span of `EOF` tokens -/

/-- Claim C3 (counterexample): a state that advances two runes of `"ab"`
into the builder and then finishes (without emitting or ignoring) makes
`NextToken` return an `EOF` token whose start `(0,1,1)` differs from its
end `(2,1,3)` — refuting "every token of type EOF ... satisfies
start == end". -/
theorem eofToken_span_counterexample :
    (adv2Lexer.nextToken none 2).map Prod.fst =
      some { type := tokenTypeEOF, value := ['a', 'b'],
             start := { filename := "", offset := 0, line := 1, column := 1 },
             endPos := { filename := "", offset := 2, line := 1, column := 3 } } ∧
    ({ filename := "", offset := 0, line := 1, column := 1 } : Position) ≠
      { filename := "", offset := 2, line := 1, column := 3 } := by
  constructor
  · decide
  · decide

/-- Claim C3 (amended): an `EOF` token produced by `NextToken` itself
(on the sticky-error path or at exhaustion of the state machine) spans
the token cursor to the read position; in particular its start and end
coincide — at the read position at stream end — exactly when the builder
span is empty (cursor = read position), as it is whenever states emit or
discard everything they consume. -/
theorem eofToken_span (l : CustomLexer) (ctx : Option GoError) (fuel : Nat)
    (h : l.core.err ≠ none ∨ (l.core.buf = [] ∧ l.state = none)) :
    (l.nextToken ctx fuel).map Prod.fst = some (l.core.newToken tokenTypeEOF) ∧
    (l.core.newToken tokenTypeEOF).type = tokenTypeEOF ∧
    (l.core.newToken tokenTypeEOF).start = l.core.cursor ∧
    (l.core.newToken tokenTypeEOF).endPos = l.core.pos ∧
    (l.core.cursor = l.core.pos →
      (l.core.newToken tokenTypeEOF).start = (l.core.newToken tokenTypeEOF).endPos) := by
  refine ⟨?_, rfl, rfl, rfl, fun h' => by simp [LexerCore.newToken, h']⟩
  rcases h with h | ⟨hb, hs⟩
  · simp [CustomLexer.nextToken, h]
  · by_cases he : l.core.err = none
    · simp [CustomLexer.nextToken, he, nextTokenLoop, hb, hs, LexerCore.newToken]
    · simp [CustomLexer.nextToken, he]

/-- Claim C3 (witness for the amended theorem): at clean exhaustion on
empty input the `EOF` token spans `(0,1,1)..(0,1,1)`. -/
theorem eofToken_span_witness :
    (exhaustedLexer.nextToken none 1).map Prod.fst =
      some (exhaustedLexer.core.newToken tokenTypeEOF) ∧
    (exhaustedLexer.core.newToken tokenTypeEOF).start =
      (exhaustedLexer.core.newToken tokenTypeEOF).endPos := by
  have h := eofToken_span exhaustedLexer none 1 (Or.inr ⟨rfl, rfl⟩)
  exact ⟨h.1, h.2.2.2.2 rfl⟩

/-! ## The behaviour of `advance` — shared by C6, C7 and C10 -/

/-- Characterization of the `advance` loop on an error-free scanner with
enough fuel (`n.toNat`, as used by `LexerCore.advance`): it consumes
exactly `min n.toNat input.length` runes off the front of the input,
folds the position over them, appends them to the builder unless
discarding, and touches nothing else (in particular no error is
recorded: `io.EOF` from the short peek is dropped). -/
theorem advanceLoop_spec :
    ∀ (fuel : Nat) (c : LexerCore) (n : Int) (dsc : Bool),
      c.err = none → n.toNat ≤ fuel →
      advanceLoop fuel c n dsc =
        (min n.toNat c.input.length,
         { c with
             input := c.input.drop (min n.toNat c.input.length),
             pos := (c.input.take (min n.toNat c.input.length)).foldl posAdv c.pos,
             b := if dsc then c.b else c.b ++ c.input.take (min n.toNat c.input.length) }) := by
  intro fuel
  induction fuel with
  | zero =>
    intro c n dsc he hf
    have hn : n.toNat = 0 := Nat.le_zero.mp hf
    simp [advanceLoop, hn]
  | succ f ih =>
    intro c n dsc he hf
    by_cases hn : 0 < n
    · rw [advanceLoop]
      simp only [hn, if_true]
      by_cases hemp : c.input.length = 0
      · -- empty input: the peek comes back empty with io.EOF and the loop ends
        have hnil : c.input = [] := List.length_eq_zero.mp hemp
        have hto0 : ¬ n < ((0:Nat) : Int) := by omega
        have h16 : (0:Nat) < (if (16:Int) < n then (16:Int) else n).toNat := by
          by_cases h : (16:Int) < n <;> simp [h] <;> omega
        have hnneg : ¬ n < (0 : Int) := by omega
        simp only [hnil, List.length_nil, Nat.cast_zero, List.take_nil, List.drop_nil,
          List.foldl_nil, List.append_nil, List.length_nil, Nat.min_zero, ite_self]
        rw [if_neg hnneg, if_pos rfl, if_pos h16]
      · -- nonempty input
        have hL : 0 < c.input.length := Nat.pos_of_ne_zero hemp
        have htoRead0 :
            (if n < (c.input.length : Int) then n else (c.input.length : Int)) ≠ 0 := by
          split_ifs with h <;> omega
        rw [if_neg htoRead0]
        set L := c.input.length with hLdef
        set tr := (if n < (L : Int) then n else (L : Int)) with htr
        have htrNat : tr.toNat = min n.toNat L := by
          rw [htr]; split_ifs with h <;> omega
        have htrle : tr.toNat ≤ L := by omega
        have hdlen : (c.input.take tr.toNat).length = tr.toNat := by
          simp [List.length_take]; omega
        rw [hdlen]
        have hshort : ¬ tr.toNat < tr.toNat := lt_irrefl _
        rw [if_neg hshort]
        by_cases hrec : 0 < n - (tr.toNat : Int)
        · -- more requested than buffered: loop again on the emptied input
          have htrL : tr.toNat = L := by rw [htrNat]; omega
          have hdrop : c.input.drop tr.toNat = [] := by
            rw [htrL]; simp [hLdef]
          have ihr := ih { c with input := c.input.drop tr.toNat,
                                  pos := (c.input.take tr.toNat).foldl posAdv c.pos,
                                  b := if dsc then c.b else c.b ++ c.input.take tr.toNat }
            (n - (tr.toNat : Int)) dsc he (by omega)
          rw [if_pos hrec, ihr]
          simp only [hdrop, List.length_nil, Nat.min_zero, List.drop_nil, List.take_nil,
            List.foldl_nil, List.append_nil, ite_self]
          have hmin : min n.toNat L = L := by omega
          rw [hmin, htrL]
          simp
        · -- the request fit in the buffer: done in one iteration
          rw [if_neg hrec]
          have htrn : tr.toNat = n.toNat := by omega
          have hmin : min n.toNat L = n.toNat := by omega
          rw [htrn, hmin]
    · have hn0 : n.toNat = 0 := by omega
      rw [advanceLoop, if_neg hn]
      simp [hn0]

/-- `advance` without discarding: consume `min n.toNat input.length`
runes, fold the position over them and append them to the builder. -/
theorem advance_spec_keep (c : LexerCore) (n : Int) (he : c.err = none) :
    c.advance n false =
      (min n.toNat c.input.length,
       { c with
           input := c.input.drop (min n.toNat c.input.length),
           pos := (c.input.take (min n.toNat c.input.length)).foldl posAdv c.pos,
           b := c.b ++ c.input.take (min n.toNat c.input.length) }) := by
  unfold LexerCore.advance
  rw [if_pos he, advanceLoop_spec n.toNat c n false he le_rfl]
  simp

/-- `advance` with discarding: consume `min n.toNat input.length` runes,
fold the position over them, and run the deferred `Ignore`: the builder
is cleared and the cursor lands on the new read position. -/
theorem advance_spec_discard (c : LexerCore) (n : Int) (he : c.err = none) :
    c.advance n true =
      (min n.toNat c.input.length,
       { buf := c.buf,
         input := c.input.drop (min n.toNat c.input.length),
         b := [],
         pos := (c.input.take (min n.toNat c.input.length)).foldl posAdv c.pos,
         cursor := (c.input.take (min n.toNat c.input.length)).foldl posAdv c.pos,
         err := none }) := by
  unfold LexerCore.advance
  rw [if_pos he, advanceLoop_spec n.toNat c n true he le_rfl]
  simp [LexerCore.ignore, ← he]

/-- A sticky error makes `advance` a no-op. -/
theorem advance_err (c : LexerCore) (n : Int) (dsc : Bool) (he : c.err ≠ none) :
    c.advance n dsc = (0, c) := by
  simp [LexerCore.advance, he]

/-! ## Position invariants (C7) -/

/-- The `Position` invariants of the spec: non-negative offset, 1-based
line and column. -/
def PosInv (p : Position) : Prop := 0 ≤ p.offset ∧ 1 ≤ p.line ∧ 1 ≤ p.column

/-- Both scanner positions satisfy the `Position` invariants. -/
def ScanInv (c : LexerCore) : Prop := PosInv c.pos ∧ PosInv c.cursor

instance (p : Position) : Decidable (PosInv p) := by
  unfold PosInv
  infer_instance

instance (c : LexerCore) : Decidable (ScanInv c) := by
  unfold ScanInv
  infer_instance

/-- One consumed rune preserves the `Position` invariants. -/
theorem posAdv_posInv (p : Position) (ch : Char) (h : PosInv p) : PosInv (posAdv p ch) := by
  obtain ⟨h1, h2, h3⟩ := h
  unfold posAdv PosInv
  split_ifs <;> dsimp only <;> exact ⟨by omega, by omega, by omega⟩

/-- Any consumed rune sequence preserves the `Position` invariants. -/
theorem foldl_posAdv_posInv (l : List Char) (p : Position) (h : PosInv p) :
    PosInv (l.foldl posAdv p) := by
  induction l generalizing p with
  | nil => exact h
  | cons ch rest ih => exact ih (posAdv p ch) (posAdv_posInv p ch h)

/-- The offset counts consumed runes — characters, not bytes. -/
theorem foldl_posAdv_offset (l : List Char) (p : Position) :
    (l.foldl posAdv p).offset = p.offset + l.length := by
  induction l generalizing p with
  | nil => simp
  | cons ch rest ih =>
    rw [List.foldl_cons, ih]
    simp only [posAdv]
    split_ifs <;> simp <;> omega

/-- `nextRune` preserves the scanner position invariants. -/
theorem nextRune_scanInv (c : LexerCore) (h : ScanInv c) : ScanInv (c.nextRune).2 := by
  unfold LexerCore.nextRune
  split_ifs with he
  · cases hi : c.input with
    | nil => exact h
    | cons ch rest => exact ⟨posAdv_posInv c.pos ch h.1, h.2⟩
  · exact h

/-- `advance` (hence `Advance`, `AdvanceN`, `Discard`, `DiscardN`)
preserves the scanner position invariants. -/
theorem advance_scanInv (c : LexerCore) (n : Int) (dsc : Bool) (h : ScanInv c) :
    ScanInv ((c.advance n dsc).2) := by
  by_cases he : c.err = none
  · cases dsc
    · rw [advance_spec_keep c n he]
      exact ⟨foldl_posAdv_posInv _ _ h.1, h.2⟩
    · rw [advance_spec_discard c n he]
      exact ⟨foldl_posAdv_posInv _ _ h.1, foldl_posAdv_posInv _ _ h.1⟩
  · rw [advance_err c n dsc he]
    exact h

/-- The `Find` loop preserves the scanner position invariants. -/
theorem findLoop_scanInv (q : List (List Char)) (maxLen : Nat) :
    ∀ (fuel : Nat) (c : LexerCore), ScanInv c → ScanInv ((findLoop q maxLen fuel c).2) := by
  intro fuel
  induction fuel with
  | zero => intro c h; exact h
  | succ f ih =>
    intro c h
    rw [findLoop]
    split_ifs with h0
    · exact h
    · cases hq : q.find? (fun cand => cand.isPrefixOf (c.peekN (maxLen : Int))) with
      | some cand => simpa [hq] using h
      | none => simpa [hq] using ih (c.nextRune).2 (nextRune_scanInv c h)

/-- The `DiscardTo` loop preserves the scanner position invariants. -/
theorem discardToLoop_scanInv (q : List (List Char)) (maxLen : Nat) :
    ∀ (fuel : Nat) (c : LexerCore), ScanInv c →
      ScanInv ((discardToLoop q maxLen fuel c).2) := by
  intro fuel
  induction fuel with
  | zero => intro c h; exact h
  | succ f ih =>
    intro c h
    rw [discardToLoop]
    cases hm : firstWindowMatch (c.peekN (if (c.input.length : Int) < (maxLen : Int)
        then (maxLen : Int) else (c.input.length : Int))) q maxLen with
    | some im =>
      simp only [hm]
      split_ifs <;> exact advance_scanInv c _ true h
    | none =>
      simp only [hm]
      split_ifs <;>
        first
          | exact advance_scanInv c _ true h
          | exact ih _ (advance_scanInv c _ true h)

/-! ## The matched behaviour of `Find` and `DiscardTo` (C6) -/

/-- When the `Find` loop reports a match, the scanner has consumed some
prefix of length `k` of its input one rune at a time — cursor untouched,
the `k` runes appended to the builder, the position folded over them —
and the matched candidate (a member of the set) sits at the read
position: nothing of it has been consumed. -/
theorem findLoop_match (q : List (List Char)) (maxLen : Nat) :
    ∀ (fuel : Nat) (c : LexerCore) (res : List Char) (c' : LexerCore),
      findLoop q maxLen fuel c = (res, c') → res ≠ [] →
      res ∈ q ∧
      ∃ k, k ≤ c.input.length ∧
        c' = { c with input := c.input.drop k,
                      pos := (c.input.take k).foldl posAdv c.pos,
                      b := c.b ++ c.input.take k } ∧
        res <+: c.input.drop k := by
  intro fuel
  induction fuel with
  | zero =>
    intro c res c' heq hne
    rw [findLoop] at heq
    cases heq
    exact absurd rfl hne
  | succ f ih =>
    intro c res c' heq hne
    rw [findLoop] at heq
    by_cases h0 : (c.peekN (maxLen : Int)).length = 0
    · rw [if_pos h0] at heq
      cases heq
      exact absurd rfl hne
    · rw [if_neg h0] at heq
      have he : c.err = none := by
        by_contra hx
        apply h0
        simp [LexerCore.peekN, hx]
      have hpeek : c.peekN (maxLen : Int) = c.input.take (maxLen : Int).toNat := by
        simp [LexerCore.peekN, he]
      cases hq : q.find? (fun cand => cand.isPrefixOf (c.peekN (maxLen : Int))) with
      | some cand =>
        rw [hq] at heq
        cases heq
        refine ⟨List.mem_of_find?_eq_some hq, 0, Nat.zero_le _, by simp, ?_⟩
        have hpre := List.find?_some hq
        simp only [hpeek] at hpre
        have := (List.isPrefixOf_iff_prefix.mp hpre).trans (List.take_prefix _ _)
        simpa using this
      | none =>
        rw [hq] at heq
        -- the loop consumed one rune with NextRune and retried
        obtain ⟨ch, rest, hin⟩ : ∃ ch rest, c.input = ch :: rest := by
          cases hi : c.input with
          | nil => exfalso; apply h0; rw [hpeek, hi]; simp
          | cons a l => exact ⟨a, l, rfl⟩
        have hnr : (c.nextRune).2 =
            { c with input := rest, pos := posAdv c.pos ch, b := c.b ++ [ch] } := by
          simp [LexerCore.nextRune, he, hin]
        rw [hnr] at heq
        obtain ⟨hm, k, hk, hc', hpre⟩ := ih _ res c' heq hne
        dsimp only at hk hc' hpre
        refine ⟨hm, k + 1, ?_, ?_, ?_⟩
        · simp only [hin, List.length_cons]; omega
        · rw [hc']
          simp only [hin, List.drop_succ_cons, List.take_succ_cons, List.foldl_cons,
            List.append_assoc, List.singleton_append]
        · simpa [hin, List.drop_succ_cons] using hpre

/-- With a sticky error, `Find` returns no match and is a no-op. -/
theorem find_err (c : LexerCore) (q : List (List Char)) (h : c.err ≠ none) :
    c.find q = ([], c) := by
  simp only [LexerCore.find]
  split_ifs with h0
  · rfl
  · rw [findLoop]
    simp [LexerCore.peekN, h]

/-- What `firstWindowMatch` reports: a window index in range and the
first matching candidate, a prefix of that window. -/
theorem firstWindowMatch_some (rns : List Char) (q : List (List Char)) (maxLen : Nat)
    (i : Nat) (cand : List Char)
    (h : firstWindowMatch rns q maxLen = some (i, cand)) :
    (i : Int) + (maxLen : Int) ≤ (rns.length : Int) ∧ cand ∈ q ∧
    cand <+: rns.drop i := by
  unfold firstWindowMatch at h
  obtain ⟨a, ha, hfa⟩ := List.exists_of_findSome?_eq_some h
  cases hfq : q.find? (fun cnd => cnd.isPrefixOf ((rns.drop a).take maxLen)) with
  | none => rw [hfq] at hfa; cases hfa
  | some cnd =>
    rw [hfq] at hfa
    cases hfa
    have hi : i < ((rns.length : Int) - (maxLen : Int) + 1).toNat := List.mem_range.mp ha
    refine ⟨by omega, List.mem_of_find?_eq_some hfq, ?_⟩
    have hpre := List.find?_some hfq
    simp only at hpre
    exact (List.isPrefixOf_iff_prefix.mp hpre).trans (List.take_prefix _ _)

/-- The shape of a scanner that has discarded the first `k` runes of
`c`'s input and has a candidate `res` waiting at the read position. -/
def DiscardedTo (c c' : LexerCore) (res : List Char) (k : Nat) : Prop :=
  k ≤ c.input.length ∧
  c' = { buf := c.buf, input := c.input.drop k, b := [],
         pos := (c.input.take k).foldl posAdv c.pos,
         cursor := (c.input.take k).foldl posAdv c.pos,
         err := none } ∧
  res <+: c.input.drop k

/-- Discarding `d` runes and then reaching a `DiscardedTo` shape at `k`
reaches the `DiscardedTo` shape at `d + k` from the original scanner. -/
theorem discardedTo_compose (c c' : LexerCore) (res : List Char) (d k : Nat)
    (hd : d ≤ c.input.length)
    (h : DiscardedTo
      { buf := c.buf, input := c.input.drop d, b := [],
        pos := (c.input.take d).foldl posAdv c.pos,
        cursor := (c.input.take d).foldl posAdv c.pos,
        err := none } c' res k) :
    DiscardedTo c c' res (d + k) := by
  obtain ⟨hk, hc', hpre⟩ := h
  refine ⟨?_, ?_, ?_⟩
  · simp only [List.length_drop] at hk
    omega
  · rw [hc']
    simp only [List.drop_drop, List.take_add, List.foldl_append]
  · simpa [List.drop_drop] using hpre

/-- When the `DiscardTo` loop reports a match, the scanner has discarded
exactly the runes before the match: the builder is empty, the cursor has
moved with the read position to the start of the matched candidate, and
the candidate (a member of the set) has not been consumed. -/
theorem discardToLoop_match (q : List (List Char)) (maxLen : Nat) (hm : 0 < maxLen) :
    ∀ (fuel : Nat) (c : LexerCore) (res : List Char) (c' : LexerCore),
      c.err = none →
      discardToLoop q maxLen fuel c = (res, c') → res ≠ [] →
      res ∈ q ∧ ∃ k, DiscardedTo c c' res k := by
  intro fuel
  induction fuel with
  | zero =>
    intro c res c' he heq hne
    rw [discardToLoop] at heq
    cases heq
    exact absurd rfl hne
  | succ f ih =>
    intro c res c' he heq hne
    rw [discardToLoop] at heq
    have hpeek : c.peekN (if (c.input.length : Int) < (maxLen : Int)
        then (maxLen : Int) else (c.input.length : Int)) = c.input := by
      rw [LexerCore.peekN, if_pos he]
      split_ifs with hc
      · exact List.take_of_length_le (by omega)
      · exact List.take_of_length_le (by omega)
    rw [hpeek] at heq
    cases hw : firstWindowMatch c.input q maxLen with
    | some im =>
      rw [hw] at heq
      obtain ⟨i, cand⟩ := im
      dsimp only at heq
      obtain ⟨hiw, hmem, hpre⟩ := firstWindowMatch_some c.input q maxLen i cand hw
      have hik : i ≤ c.input.length := by omega
      have hadv := advance_spec_discard c (i : Int) he
      have hmin : min ((i : Int)).toNat c.input.length = i := by omega
      rw [hmin] at hadv
      rw [hadv] at heq
      simp only at heq
      rw [if_neg (lt_irrefl i)] at heq
      cases heq
      exact ⟨hmem, i, hik, rfl, hpre⟩
    | none =>
      rw [hw] at heq
      dsimp only at heq
      split_ifs at heq with hcase hg1 hg2
      · -- advance of a single rune failed at end of input: no match
        cases heq
        exact absurd rfl hne
      · -- short input: one rune was discarded; compose with the retry
        rw [advance_spec_discard _ _ he] at heq
        dsimp only at heq
        obtain ⟨hmem, k, hdk⟩ := ih _ res c' rfl heq hne
        exact ⟨hmem, _ + k,
          discardedTo_compose c c' res _ k (Nat.min_le_right _ _) hdk⟩
      · -- advance failed (cannot happen with a match downstream): no match
        cases heq
        exact absurd rfl hne
      · -- `len - maxLen + 1` runes were discarded; compose with the retry
        rw [advance_spec_discard _ _ he] at heq
        dsimp only at heq
        obtain ⟨hmem, k, hdk⟩ := ih _ res c' rfl heq hne
        exact ⟨hmem, _ + k,
          discardedTo_compose c c' res _ k (Nat.min_le_right _ _) hdk⟩

/-- With a sticky error, `DiscardTo` returns no match and is a no-op. -/
theorem discardTo_err (c : LexerCore) (q : List (List Char)) (h : c.err ≠ none) :
    c.discardTo q = ([], c) := by
  simp only [LexerCore.discardTo]
  split_ifs with h0
  · rfl
  · rw [discardToLoop]
    have hp : c.peekN (if (c.input.length : Int) < (findMaxLen q : Int)
        then (findMaxLen q : Int) else (c.input.length : Int)) = [] := by
      simp [LexerCore.peekN, h]
    rw [hp]
    have hfw : firstWindowMatch [] q (findMaxLen q) = none := by
      unfold firstWindowMatch
      have hz : ((([] : List Char).length : Int) - (findMaxLen q : Int) + 1).toNat = 0 := by
        simp only [List.length_nil, Nat.cast_zero]
        omega
      rw [hz]
      simp
    rw [hfw]
    dsimp only
    rw [advance_err c _ true h]
    simp only [List.length_nil, Nat.cast_zero]
    rw [if_pos (by omega : (0 : Int) - (findMaxLen q : Int) + 1 ≤ 0)]
    norm_num

/-- Claim C6: when `Find` or `DiscardTo` returns a match, the matched
candidate is one of the given candidates and sits — unconsumed — exactly
at the read position.  `Find` leaves the token cursor, appends every
rune preceding the match to the builder, and records no error;
`DiscardTo` discards the preceding runes and advances the token cursor
to the match position (the builder left empty).  In both cases the
runes consumed are exactly the input runes before the match. -/
theorem find_discardTo_locality (c : LexerCore) (q : List (List Char))
    (res resD : List Char) (c1 c2 : LexerCore)
    (hf : c.find q = (res, c1)) (hd : c.discardTo q = (resD, c2)) :
    (res ≠ [] →
      res ∈ q ∧
      c1.input = c.input.drop (c.input.length - c1.input.length) ∧
      res <+: c1.input ∧
      c1.cursor = c.cursor ∧
      c1.b = c.b ++ c.input.take (c.input.length - c1.input.length) ∧
      c1.pos = (c.input.take (c.input.length - c1.input.length)).foldl posAdv c.pos ∧
      c1.buf = c.buf ∧ c1.err = c.err) ∧
    (resD ≠ [] →
      resD ∈ q ∧
      c2.input = c.input.drop (c.input.length - c2.input.length) ∧
      resD <+: c2.input ∧
      c2.b = [] ∧ c2.cursor = c2.pos ∧
      c2.pos = (c.input.take (c.input.length - c2.input.length)).foldl posAdv c.pos ∧
      c2.buf = c.buf ∧ c2.err = none) := by
  constructor
  · intro hne
    simp only [LexerCore.find] at hf
    split_ifs at hf with h0
    · cases hf
      exact absurd rfl hne
    · obtain ⟨hm, k, hk, hc1, hpre⟩ :=
        findLoop_match q (findMaxLen q) (c.input.length + 1) c res c1 hf hne
      subst hc1
      have hcount : c.input.length - (c.input.drop k).length = k := by
        simp only [List.length_drop]
        omega
      dsimp only
      rw [hcount]
      exact ⟨hm, rfl, hpre, rfl, rfl, rfl, rfl, rfl⟩
  · intro hne
    by_cases he : c.err = none
    · simp only [LexerCore.discardTo] at hd
      split_ifs at hd with h0
      · cases hd
        exact absurd rfl hne
      · obtain ⟨hm, k, hdk⟩ :=
          discardToLoop_match q (findMaxLen q) (Nat.pos_of_ne_zero h0)
            (c.input.length + 1) c resD c2 he hd hne
        unfold DiscardedTo at hdk
        obtain ⟨hk, hc2, hpre⟩ := hdk
        subst hc2
        have hcount : c.input.length - (c.input.drop k).length = k := by
          simp only [List.length_drop]
          omega
        dsimp only
        rw [hcount]
        exact ⟨hm, rfl, hpre, rfl, rfl, rfl, rfl, rfl⟩
    · rw [discardTo_err c q he] at hd
      cases hd
      exact absurd rfl hne

/-- A concrete `Find` run with a match: input `"a!"`, candidate `"!"`. -/
def findEx : List Char × LexerCore := (mkCore ['a', '!']).find [['!']]

/-- A concrete `DiscardTo` run with a match: input `"a!"`, candidate `"!"`. -/
def discardToEx : List Char × LexerCore := (mkCore ['a', '!']).discardTo [['!']]

/-- Claim C6 (witness): both searches on `"a!"` for `"!"` match with the
stated locality. -/
theorem find_discardTo_locality_witness :
    (findEx.1 ∈ [['!']] ∧
     findEx.2.input =
       (mkCore ['a', '!']).input.drop
         ((mkCore ['a', '!']).input.length - findEx.2.input.length) ∧
     findEx.1 <+: findEx.2.input ∧
     findEx.2.cursor = (mkCore ['a', '!']).cursor ∧
     findEx.2.b = (mkCore ['a', '!']).b ++
       (mkCore ['a', '!']).input.take
         ((mkCore ['a', '!']).input.length - findEx.2.input.length) ∧
     findEx.2.pos =
       ((mkCore ['a', '!']).input.take
         ((mkCore ['a', '!']).input.length - findEx.2.input.length)).foldl posAdv
         (mkCore ['a', '!']).pos ∧
     findEx.2.buf = (mkCore ['a', '!']).buf ∧
     findEx.2.err = (mkCore ['a', '!']).err) ∧
    (discardToEx.1 ∈ [['!']] ∧
     discardToEx.2.input =
       (mkCore ['a', '!']).input.drop
         ((mkCore ['a', '!']).input.length - discardToEx.2.input.length) ∧
     discardToEx.1 <+: discardToEx.2.input ∧
     discardToEx.2.b = [] ∧
     discardToEx.2.cursor = discardToEx.2.pos ∧
     discardToEx.2.pos =
       ((mkCore ['a', '!']).input.take
         ((mkCore ['a', '!']).input.length - discardToEx.2.input.length)).foldl posAdv
         (mkCore ['a', '!']).pos ∧
     discardToEx.2.buf = (mkCore ['a', '!']).buf ∧
     discardToEx.2.err = none) := by
  have h := find_discardTo_locality (mkCore ['a', '!']) [['!']]
    findEx.1 discardToEx.1 findEx.2 discardToEx.2 rfl rfl
  exact ⟨h.1 (by decide), h.2 (by decide)⟩

/-! ## C7 — position invariants of the consuming operations -/

/-- Claim C7: every consuming operation — `NextRune`, `Advance`,
`AdvanceN`, `Discard`, `DiscardN`, `Find`, `DiscardTo` — keeps both
scanner positions satisfying `offset ≥ 0`, `line ≥ 1`, `column ≥ 1`;
per consumed rune a newline advances the line by 1 and resets the column
to 1 while any other rune advances the column by 1 and the offset by 1;
the offset counts consumed runes (characters, not bytes), and `advance`
folds the per-rune update over exactly the runes consumed. -/
theorem consuming_ops_position_invariants :
    (∀ (p : Position) (ch : Char), PosInv p → PosInv (posAdv p ch)) ∧
    (∀ p : Position, (posAdv p '\n').line = p.line + 1 ∧ (posAdv p '\n').column = 1) ∧
    (∀ (p : Position) (ch : Char), ch ≠ '\n' →
      (posAdv p ch).column = p.column + 1 ∧ (posAdv p ch).offset = p.offset + 1 ∧
      (posAdv p ch).line = p.line) ∧
    (∀ (l : List Char) (p : Position), (l.foldl posAdv p).offset = p.offset + l.length) ∧
    (∀ (c : LexerCore) (ch : Char) (rest : List Char),
      c.err = none → c.input = ch :: rest → (c.nextRune).2.pos = posAdv c.pos ch) ∧
    (∀ (c : LexerCore) (n : Int) (dsc : Bool), c.err = none →
      (c.advance n dsc).1 = min n.toNat c.input.length ∧
      (c.advance n dsc).2.pos =
        (c.input.take (min n.toNat c.input.length)).foldl posAdv c.pos) ∧
    (∀ c : LexerCore, ScanInv c → ScanInv (c.nextRune).2) ∧
    (∀ (c : LexerCore) (n : Int) (dsc : Bool), ScanInv c → ScanInv (c.advance n dsc).2) ∧
    (∀ c : LexerCore, ScanInv c → ScanInv (c.advance1).2 ∧ ScanInv (c.discard1).2) ∧
    (∀ (c : LexerCore) (n : Int), ScanInv c →
      ScanInv (c.advanceN n).2 ∧ ScanInv (c.discardN n).2) ∧
    (∀ (c : LexerCore) (q : List (List Char)), ScanInv c → ScanInv (c.find q).2) ∧
    (∀ (c : LexerCore) (q : List (List Char)), ScanInv c → ScanInv (c.discardTo q).2) := by
  refine ⟨posAdv_posInv, ?_, ?_, foldl_posAdv_offset, ?_, ?_, nextRune_scanInv,
          advance_scanInv, ?_, ?_, ?_, ?_⟩
  · intro p
    simp [posAdv]
  · intro p ch h
    simp [posAdv, h]
  · intro c ch rest he hin
    simp [LexerCore.nextRune, he, hin]
  · intro c n dsc he
    cases dsc
    · rw [advance_spec_keep c n he]
      exact ⟨rfl, rfl⟩
    · rw [advance_spec_discard c n he]
      exact ⟨rfl, rfl⟩
  · intro c h
    exact ⟨advance_scanInv c 1 false h, advance_scanInv c 1 true h⟩
  · intro c n h
    exact ⟨advance_scanInv c n false h, advance_scanInv c n true h⟩
  · intro c q h
    simp only [LexerCore.find]
    split_ifs with h0
    · exact h
    · exact findLoop_scanInv q (findMaxLen q) (c.input.length + 1) c h
  · intro c q h
    simp only [LexerCore.discardTo]
    split_ifs with h0
    · exact h
    · exact discardToLoop_scanInv q (findMaxLen q) (c.input.length + 1) c h

/-- Claim C7 (witness). -/
theorem consuming_ops_position_invariants_witness :
    PosInv (posAdv posInit '\n') ∧
    ScanInv ((mkCore ['a', '\n', 'b']).discardTo [['b']]).2 ∧
    ScanInv ((mkCore ['a', '\n', 'b']).advance 2 false).2 := by
  have h := consuming_ops_position_invariants
  refine ⟨h.1 posInit '\n' (by decide), ?_, ?_⟩
  · exact h.2.2.2.2.2.2.2.2.2.2.2 (mkCore ['a', '\n', 'b']) [['b']] (by decide)
  · exact h.2.2.2.2.2.2.2.1 (mkCore ['a', '\n', 'b']) 2 false (by decide)

/-! ## C8 — the tree link invariant and the tree-editing operations

Reachability follows child links downward from the root, exactly the
edges a traversal of the Go `Node[V]` tree would follow. -/

/-- One parent-to-child link in the heap. -/
def childStep {V : Type} (h : List (PNode V)) (a b : Nat) : Prop :=
  ∃ pn, h.get? a = some pn ∧ b ∈ pn.children

/-- The nodes reachable from `r` by following child links. -/
inductive Reach {V : Type} (h : List (PNode V)) (r : Nat) : Nat → Prop
  | refl : Reach h r r
  | child {p c : Nat} : Reach h r p → childStep h p c → Reach h r c

/-- The tree-shape invariant of the parse tree rooted at `root`:
the root is a valid index with no parent; reachable indices are valid;
every child of a reachable node points back at it; children lists of
reachable nodes have no duplicates; no reachable node descends from
itself. -/
structure TreeInv {V : Type} (h : List (PNode V)) (root : Nat) : Prop where
  rootLt : root < h.length
  rootParent : ∀ rn, h.get? root = some rn → rn.parent = none
  reachLt : ∀ n, Reach h root n → n < h.length
  back : ∀ p pn, Reach h root p → h.get? p = some pn →
    ∀ c ∈ pn.children, ∃ cn, h.get? c = some cn ∧ cn.parent = some p
  nodup : ∀ p pn, Reach h root p → h.get? p = some pn → pn.children.Nodup
  acyc : ∀ n, Reach h root n → ¬ Relation.TransGen (childStep h) n n

/-- The parser invariant: the heap is a tree from `root` and the
current node is reachable. -/
def PInv {V : Type} (p : Parser V) : Prop :=
  TreeInv p.heap p.root ∧ Reach p.heap p.root p.node

/-- The claim's statement of the invariant: the root has no parent, and
every reachable non-root node appears exactly once in its parent's
children. -/
def ClaimInv {V : Type} (h : List (PNode V)) (root : Nat) : Prop :=
  (∀ rn, h.get? root = some rn → rn.parent = none) ∧
  (∀ n, Reach h root n → n ≠ root →
    ∃ q qn nn, h.get? q = some qn ∧ h.get? n = some nn ∧
      nn.parent = some q ∧ qn.children.count n = 1)

/-- Reachability is closed under further child steps; in particular it is
transitive along `TransGen`. -/
theorem Reach.trans_transGen {V : Type} {h : List (PNode V)} {r a b : Nat}
    (ha : Reach h r a) (hab : Relation.TransGen (childStep h) a b) : Reach h r b := by
  induction hab with
  | single hs => exact ha.child hs
  | tail _ hs ih => exact ih.child hs

/-- Inversion: a reachable node is the root or a child of a reachable
node. -/
theorem Reach.inv {V : Type} {h : List (PNode V)} {r n : Nat} (hr : Reach h r n) :
    n = r ∨ ∃ p, Reach h r p ∧ childStep h p n := by
  cases hr with
  | refl => exact Or.inl rfl
  | child hp hs => exact Or.inr ⟨_, hp, hs⟩

/-- A `TransGen` chain has a first step. -/
theorem transGen_head {α : Type} {R : α → α → Prop} {a b : α}
    (h : Relation.TransGen R a b) : ∃ c, R a c := by
  induction h with
  | single hs => exact ⟨_, hs⟩
  | tail _ _ ih => exact ih

/-- Pulling a `TransGen` chain back along a step mapping that is valid on
a class `P` closed under steps. -/
theorem transGen_map {α β : Type} {R : α → α → Prop} {S : β → β → Prop}
    {P : α → Prop} (σ : α → β)
    (hcl : ∀ a b, P a → R a b → P b)
    (hmap : ∀ a b, P a → R a b → S (σ a) (σ b)) :
    ∀ a b, P a → Relation.TransGen R a b → Relation.TransGen S (σ a) (σ b) := by
  intro a b hPa htg
  induction htg with
  | single hs => exact .single (hmap _ _ hPa hs)
  | tail htg hs ih =>
    have hPb := (Relation.TransGen.head_induction_on (P := fun x _ => P x → P _) htg
      (fun hr hx => hcl _ _ hx hr)
      (fun hr _ hi hx => hi (hcl _ _ hx hr))) hPa
    exact .tail ih (hmap _ _ hPb hs)

/-- A chain avoiding a sink `bad` (no outgoing steps) pulls back to the
un-extended relation when every step either exists there or enters
`bad`. -/
theorem transGen_no_bad {α : Type} {R' R : α → α → Prop} {bad : α}
    (hmap : ∀ a b, R' a b → R a b ∨ b = bad)
    (hnobad : ∀ z, ¬ R' bad z) :
    ∀ a b, Relation.TransGen R' a b → b ≠ bad → Relation.TransGen R a b := by
  intro a b htg
  induction htg with
  | single hs =>
    intro hb
    rcases hmap _ _ hs with hr | rfl
    · exact .single hr
    · exact absurd rfl hb
  | tail htg hs ih =>
    intro hc
    rcases hmap _ _ hs with hr | rfl
    · rename_i b' c'
      by_cases hb : b' = bad
      · subst hb
        exact absurd hs (hnobad _)
      · exact .tail (ih hb) hr
    · exact absurd rfl hc

/-- `TreeInv` entails the claim's formulation of the invariant. -/
theorem treeInv_claimInv {V : Type} {h : List (PNode V)} {root : Nat}
    (hi : TreeInv h root) : ClaimInv h root := by
  refine ⟨hi.rootParent, ?_⟩
  intro n hr hne
  rcases hr.inv with rfl | ⟨p, hp, pn, hget, hmem⟩
  · exact absurd rfl hne
  · obtain ⟨cn, hcn, hcp⟩ := hi.back p pn hp hget n hmem
    exact ⟨p, pn, cn, hget, hcn, hcp,
      List.count_eq_one_of_mem (hi.nodup p pn hp hget) hmem⟩

/-- A valid heap entry exists at every reachable index. -/
theorem reach_get {V : Type} {h : List (PNode V)} {root n : Nat}
    (hi : TreeInv h root) (hr : Reach h root n) : ∃ pn, h.get? n = some pn := by
  cases hg : h.get? n with
  | some pn => exact ⟨pn, rfl⟩
  | none =>
    have h1 := List.get?_eq_none.mp hg
    have h2 := hi.reachLt n hr
    omega

/-- `Node` (and through it `Push`) preserves the parser invariant: the
new node is a fresh leaf appended to the current node's children. -/
theorem nodeOp_spec {V : Type} (p : Parser V) (v : V) (hp : PInv p) :
    TreeInv (p.nodeOp v).2.heap p.root ∧
    Reach (p.nodeOp v).2.heap p.root p.node ∧
    Reach (p.nodeOp v).2.heap p.root p.heap.length ∧
    (p.nodeOp v).2.root = p.root ∧ (p.nodeOp v).2.node = p.node ∧
    (p.nodeOp v).1 = p.heap.length := by
  obtain ⟨hi, hcr⟩ := hp
  obtain ⟨curN, hcur⟩ := reach_get hi hcr
  have hcurLt : p.node < p.heap.length := hi.reachLt _ hcr
  set L := p.heap.length with hL
  set newN : PNode V := { p.newNode v with parent := some p.node } with hnewN
  set h' : List (PNode V) :=
    (p.heap.set p.node { curN with children := curN.children ++ [L] }) ++ [newN] with hh'
  have hcurG : p.heap[p.node]? = some curN := by
    rw [← List.get?_eq_getElem?]
    exact hcur
  have hheap : (p.nodeOp v).2.heap = h' := by
    simp [Parser.nodeOp, hcurG, hh', hnewN]
  have hroot' : (p.nodeOp v).2.root = p.root := by simp [Parser.nodeOp, hcurG]
  have hnode' : (p.nodeOp v).2.node = p.node := by simp [Parser.nodeOp, hcurG]
  have hfst : (p.nodeOp v).1 = L := by simp [Parser.nodeOp, hcurG]
  have hlen : h'.length = L + 1 := by simp [hh']
  have hA : ∀ i, i ≠ p.node → i < L → h'.get? i = p.heap.get? i := by
    intro i hne hlt
    rw [hh', List.get?_append (by simpa using hlt), List.get?_set_ne _ _ (fun hx => hne hx.symm)]
  have hB : h'.get? p.node = some { curN with children := curN.children ++ [L] } := by
    rw [hh', List.get?_append (by simpa using hcurLt), List.get?_set_eq, hcur]
    rfl
  have hC : h'.get? L = some newN := by
    rw [hh', List.get?_append_right (by rw [List.length_set])]
    simp [List.length_set, hL]
  have hvalid : ∀ {a : Nat} {pn : PNode V}, h'.get? a = some pn → a ≤ L := by
    intro a pn hg
    obtain ⟨hlt, -⟩ := List.get?_eq_some.mp hg
    rw [hlen] at hlt
    omega
  have hchildLt : ∀ {q : Nat} {qn : PNode V} {c : Nat},
      Reach p.heap p.root q → p.heap.get? q = some qn → c ∈ qn.children → c < L := by
    intro q qn c hq hg hc
    obtain ⟨cn, hcn, -⟩ := hi.back q qn hq hg c hc
    obtain ⟨hlt, -⟩ := List.get?_eq_some.mp hcn
    omega
  -- old reachability transfers to the new heap
  have hup : ∀ n, Reach p.heap p.root n → Reach h' p.root n := by
    intro n hn
    induction hn with
    | refl => exact .refl
    | child hq hs ih =>
      obtain ⟨pn, hg, hc⟩ := hs
      rename_i q c
      by_cases hqc : q = p.node
      · subst hqc
        have hpc : pn = curN := by
          rw [hcur] at hg
          exact ((Option.some.injEq _ _).mp hg).symm
        subst hpc
        exact ih.child ⟨_, hB, by simp only [List.mem_append]; exact Or.inl hc⟩
      · have hqlt : q < L := by
          obtain ⟨hlt, -⟩ := List.get?_eq_some.mp hg
          omega
        exact ih.child ⟨pn, by rw [hA q hqc hqlt]; exact hg, hc⟩
  -- new reachability is the old plus the fresh leaf
  have hdown : ∀ n, Reach h' p.root n → n = L ∨ Reach p.heap p.root n := by
    intro n hn
    induction hn with
    | refl => exact Or.inr .refl
    | child hq hs ih =>
      obtain ⟨pn, hg, hc⟩ := hs
      rename_i q c
      rcases ih with rfl | hqh
      · rw [hC] at hg
        cases (Option.some.injEq _ _).mp hg
        simp [hnewN, Parser.newNode] at hc
      · by_cases hqc : q = p.node
        · subst hqc
          rw [hB] at hg
          cases (Option.some.injEq _ _).mp hg
          simp only [List.mem_append, List.mem_singleton] at hc
          rcases hc with hc | rfl
          · exact Or.inr (hqh.child ⟨curN, hcur, hc⟩)
          · exact Or.inl rfl
        · have hqlt : q < L := hi.reachLt q hqh
          rw [hA q hqc hqlt] at hg
          exact Or.inr (hqh.child ⟨pn, hg, hc⟩)
  -- no self-loop at the current node
  have hnoself : p.node ∉ curN.children := by
    intro hmem
    exact hi.acyc p.node hcr (.single ⟨curN, hcur, hmem⟩)
  refine ⟨⟨?_, ?_, ?_, ?_, ?_, ?_⟩,
         by rw [hheap]; exact hup _ hcr,
         by rw [hheap]; exact (hup _ hcr).child ⟨_, hB, by simp⟩,
         hroot', hnode', hfst⟩
  all_goals rw [hheap]
  · have := hi.rootLt
    rw [hlen]
    omega
  · intro rn hg
    by_cases hrc : p.root = p.node
    · rw [hrc, hB] at hg
      cases (Option.some.injEq _ _).mp hg
      exact hi.rootParent curN (by rw [hrc]; exact hcur)
    · rw [hA _ hrc hi.rootLt] at hg
      exact hi.rootParent rn hg
  · intro n hn
    rw [hlen]
    rcases hdown n hn with rfl | hr
    · omega
    · have := hi.reachLt n hr
      omega
  · intro q pn hq hg c hc
    rcases hdown q hq with rfl | hqh
    · rw [hC] at hg
      cases (Option.some.injEq _ _).mp hg
      simp [hnewN, Parser.newNode] at hc
    · by_cases hqc : q = p.node
      · subst hqc
        rw [hB] at hg
        cases (Option.some.injEq _ _).mp hg
        simp only [List.mem_append, List.mem_singleton] at hc
        rcases hc with hc | rfl
        · obtain ⟨cn, hcn, hpar⟩ := hi.back _ curN hqh hcur c hc
          have hcLt : c < L := hchildLt hqh hcur hc
          have hcne : c ≠ p.node := fun hx => hnoself (hx ▸ hc)
          exact ⟨cn, by rw [hA c hcne hcLt]; exact hcn, hpar⟩
        · exact ⟨newN, hC, rfl⟩
      · have hqlt : q < L := hi.reachLt q hqh
        rw [hA q hqc hqlt] at hg
        obtain ⟨cn, hcn, hpar⟩ := hi.back q pn hqh hg c hc
        have hcLt : c < L := hchildLt hqh hg hc
        by_cases hcc : c = p.node
        · subst hcc
          refine ⟨{ curN with children := curN.children ++ [L] }, hB, ?_⟩
          have hcc2 : cn = curN := by
            rw [hcur] at hcn
            exact ((Option.some.injEq _ _).mp hcn).symm
          subst hcc2
          exact hpar
        · exact ⟨cn, by rw [hA c hcc hcLt]; exact hcn, hpar⟩
  · intro q pn hq hg
    rcases hdown q hq with rfl | hqh
    · rw [hC] at hg
      cases (Option.some.injEq _ _).mp hg
      simp [hnewN, Parser.newNode]
    · by_cases hqc : q = p.node
      · subst hqc
        rw [hB] at hg
        cases (Option.some.injEq _ _).mp hg
        rw [List.nodup_append]
        refine ⟨hi.nodup _ curN hqh hcur, List.nodup_singleton _, ?_⟩
        rw [List.disjoint_singleton]
        intro hmem
        exact absurd (hchildLt hqh hcur hmem) (lt_irrefl L)
      · have hqlt : q < L := hi.reachLt q hqh
        rw [hA q hqc hqlt] at hg
        exact hi.nodup q pn hqh hg
  · intro n hn htg
    have hmap : ∀ a b, childStep h' a b → childStep p.heap a b ∨ b = L := by
      intro a b hs
      obtain ⟨pn, hg, hc⟩ := hs
      have haL : a ≤ L := hvalid hg
      by_cases haLe : a = L
      · subst haLe
        rw [hC] at hg
        cases (Option.some.injEq _ _).mp hg
        simp [hnewN, Parser.newNode] at hc
      · by_cases hac : a = p.node
        · subst hac
          rw [hB] at hg
          cases (Option.some.injEq _ _).mp hg
          simp only [List.mem_append, List.mem_singleton] at hc
          rcases hc with hc | rfl
          · exact Or.inl ⟨curN, hcur, hc⟩
          · exact Or.inr rfl
        · rw [hA a hac (by omega)] at hg
          exact Or.inl ⟨pn, hg, hc⟩
    have hnobad : ∀ z, ¬ childStep h' L z := by
      intro z hs
      obtain ⟨pn, hg, hc⟩ := hs
      rw [hC] at hg
      cases (Option.some.injEq _ _).mp hg
      simp [hnewN, Parser.newNode] at hc
    rcases hdown n hn with rfl | hr
    · obtain ⟨z, hz⟩ := transGen_head htg
      exact hnobad z hz
    · have hne : n ≠ L := by
        have := hi.reachLt n hr
        omega
      exact hi.acyc n hr (transGen_no_bad hmap hnobad n n htg hne)

/-! Auxiliary facts about `replaceFirst` and `setParent`. -/

theorem replaceFirst_mem_new (l : List Nat) (a b : Nat) (h : a ∈ l) :
    b ∈ replaceFirst l a b := by
  induction l with
  | nil => cases h
  | cons x xs ih =>
    rw [replaceFirst]
    by_cases hx : x = a
    · rw [if_pos hx]
      exact List.mem_cons_self _ _
    · rw [if_neg hx]
      rcases List.mem_cons.mp h with rfl | h'
      · exact absurd rfl hx
      · exact List.mem_cons_of_mem _ (ih h')

theorem replaceFirst_mem_old (l : List Nat) (a b c : Nat) (h : c ∈ l) (hca : c ≠ a) :
    c ∈ replaceFirst l a b := by
  induction l with
  | nil => cases h
  | cons x xs ih =>
    rw [replaceFirst]
    rcases List.mem_cons.mp h with rfl | h'
    · rw [if_neg (fun hx => hca hx)]
      exact List.mem_cons_self _ _
    · by_cases hx : x = a
      · rw [if_pos hx]
        exact List.mem_cons_of_mem _ h'
      · rw [if_neg hx]
        exact List.mem_cons_of_mem _ (ih h')

/-- Membership in the spliced list, for duplicate-free lists: an element
is the new value or an old element other than the replaced one. -/
theorem replaceFirst_mem (l : List Nat) (a b c : Nat) (hnd : l.Nodup)
    (ha : a ∈ l) (h : c ∈ replaceFirst l a b) : c = b ∨ (c ∈ l ∧ c ≠ a) := by
  induction l with
  | nil => cases h
  | cons x xs ih =>
    rw [replaceFirst] at h
    rcases List.nodup_cons.mp hnd with ⟨hx_notin, hnd'⟩
    by_cases hx : x = a
    · subst hx
      rw [if_pos rfl] at h
      rcases List.mem_cons.mp h with rfl | h'
      · exact Or.inl rfl
      · exact Or.inr ⟨List.mem_cons_of_mem _ h',
          fun hca => hx_notin (by rw [← hca]; exact h')⟩
    · rw [if_neg hx] at h
      rcases List.mem_cons.mp h with rfl | h'
      · exact Or.inr ⟨List.mem_cons_self _ _, hx⟩
      · rcases List.mem_cons.mp ha with rfl | ha'
        · exact absurd rfl hx
        · rcases ih hnd' ha' h' with hb | ⟨hc, hca⟩
          · exact Or.inl hb
          · exact Or.inr ⟨List.mem_cons_of_mem _ hc, hca⟩

theorem replaceFirst_id (l : List Nat) (a b : Nat) (h : a ∉ l) :
    replaceFirst l a b = l := by
  induction l with
  | nil => rfl
  | cons x xs ih =>
    rw [replaceFirst,
        if_neg (fun hx => h (by rw [← hx]; exact List.mem_cons_self _ _)),
        ih (fun hmem => h (List.mem_cons_of_mem _ hmem))]

theorem replaceFirst_nodup (l : List Nat) (a b : Nat) (hnd : l.Nodup) (hb : b ∉ l) :
    (replaceFirst l a b).Nodup := by
  induction l with
  | nil => exact List.nodup_nil
  | cons x xs ih =>
    rw [replaceFirst]
    rcases List.nodup_cons.mp hnd with ⟨hx_notin, hnd'⟩
    have hbx : b ∉ xs := fun hmem => hb (List.mem_cons_of_mem _ hmem)
    by_cases hx : x = a
    · rw [if_pos hx]
      exact List.nodup_cons.mpr ⟨hbx, hnd'⟩
    · rw [if_neg hx]
      refine List.nodup_cons.mpr ⟨?_, ih hnd' hbx⟩
      intro hmem
      by_cases ha : a ∈ xs
      · rcases replaceFirst_mem xs a b x hnd' ha hmem with rfl | ⟨hc, -⟩
        · exact hb (List.mem_cons_self _ _)
        · exact hx_notin hc
      · rw [replaceFirst_id xs a b ha] at hmem
        exact hx_notin hmem

theorem setParent_get_ne {V : Type} (newIdx : Nat) (h : List (PNode V)) (c i : Nat)
    (hne : i ≠ c) : (setParent newIdx h c).get? i = h.get? i := by
  unfold setParent
  cases hg : h.get? c with
  | none => rfl
  | some cn => exact List.get?_set_ne _ _ (fun hx => hne hx.symm)

theorem setParent_get_self {V : Type} (newIdx : Nat) (h : List (PNode V)) (c : Nat) :
    (setParent newIdx h c).get? c =
      (h.get? c).map (fun cn => { cn with parent := some newIdx }) := by
  unfold setParent
  cases hg : h.get? c with
  | none => rw [hg]; rfl
  | some cn =>
    rw [List.get?_set_eq, hg]
    rfl

theorem setParent_length {V : Type} (newIdx : Nat) (h : List (PNode V)) (c : Nat) :
    (setParent newIdx h c).length = h.length := by
  unfold setParent
  cases h.get? c <;> simp

theorem foldl_setParent_length {V : Type} (newIdx : Nat) :
    ∀ (l : List Nat) (h : List (PNode V)),
      (l.foldl (setParent newIdx) h).length = h.length := by
  intro l
  induction l with
  | nil => intro h; rfl
  | cons x xs ih =>
    intro h
    rw [List.foldl_cons, ih, setParent_length]

theorem foldl_setParent_not_mem {V : Type} (newIdx : Nat) :
    ∀ (l : List Nat) (h : List (PNode V)) (i : Nat), i ∉ l →
      (l.foldl (setParent newIdx) h).get? i = h.get? i := by
  intro l
  induction l with
  | nil => intro h i _; rfl
  | cons x xs ih =>
    intro h i hni
    rw [List.foldl_cons, ih _ _ (fun hmem => hni (List.mem_cons_of_mem _ hmem)),
        setParent_get_ne _ _ _ _
          (fun hx => hni (by rw [hx]; exact List.mem_cons_self _ _))]

theorem foldl_setParent_mem {V : Type} (newIdx : Nat) :
    ∀ (l : List Nat) (h : List (PNode V)) (i : Nat), l.Nodup → i ∈ l →
      (l.foldl (setParent newIdx) h).get? i =
        (h.get? i).map (fun cn => { cn with parent := some newIdx }) := by
  intro l
  induction l with
  | nil => intro h i _ hmem; cases hmem
  | cons x xs ih =>
    intro h i hnd hmem
    rcases List.nodup_cons.mp hnd with ⟨hx_notin, hnd'⟩
    rw [List.foldl_cons]
    rcases List.mem_cons.mp hmem with rfl | hmem'
    · rw [foldl_setParent_not_mem _ _ _ _ hx_notin, setParent_get_self]
    · rw [ih _ _ hnd' hmem', setParent_get_ne _ _ _ _
        (fun hx => hx_notin (by rw [← hx]; exact hmem'))]

/-- `Climb` preserves the parser invariant: the heap and root are
untouched and the cursor moves to the (reachable) parent, or stays at a
parentless node. -/
theorem climb_spec {V : Type} (p : Parser V) (hp : PInv p) :
    PInv (p.climb).2 ∧ (p.climb).2.heap = p.heap ∧ (p.climb).2.root = p.root ∧
    (p.climb).1 = p.node := by
  obtain ⟨hi, hcr⟩ := hp
  cases hpar : p.heap[p.node]?.bind PNode.parent with
  | none =>
    have hcl : p.climb = (p.node, p) := by simp [Parser.climb, hpar]
    rw [hcl]
    exact ⟨⟨hi, hcr⟩, rfl, rfl, rfl⟩
  | some q =>
    have hcl : p.climb = (p.node, { p with node := q }) := by simp [Parser.climb, hpar]
    rw [hcl]
    refine ⟨⟨hi, ?_⟩, rfl, rfl, rfl⟩
    obtain ⟨cn, hcn⟩ := reach_get hi hcr
    have hparQ : (p.heap.get? p.node).bind PNode.parent = some q := by
      rw [List.get?_eq_getElem?]
      exact hpar
    rw [hcn] at hparQ
    simp only [Option.some_bind] at hparQ
    rcases hcr.inv with hroot | ⟨pp, hpp, pn, hgpn, hmem⟩
    · exfalso
      rw [hroot] at hcn
      have hrp := hi.rootParent cn hcn
      rw [hrp] at hparQ
      cases hparQ
    · obtain ⟨cn2, hcn2, hparent⟩ := hi.back pp pn hpp hgpn p.node hmem
      rw [hcn] at hcn2
      cases (Option.some.injEq _ _).mp hcn2
      rw [hparent] at hparQ
      cases (Option.some.injEq _ _).mp hparQ
      exact hpp

/-- `Replace` preserves the parser invariant and performs exactly the
splice the claim describes: the new node takes the old node's place in
its parent's child list (first — by the invariant, only — occurrence),
inherits the old node's children in order with their parent pointers
moved to it, becomes the root when the old node was the root, and
becomes the current node. -/
theorem replace_spec {V : Type} (p : Parser V) (v : V) (hp : PInv p) :
    PInv (p.replace v).2 ∧
    (p.replace v).2.node = p.heap.length ∧
    (p.node = p.root → (p.replace v).2.root = p.heap.length) ∧
    (p.node ≠ p.root → (p.replace v).2.root = p.root) ∧
    (∀ old, p.heap.get? p.node = some old →
      (p.replace v).1 = some old.value ∧
      (p.replace v).2.heap.get? p.heap.length =
        some { p.newNode v with parent := old.parent, children := old.children } ∧
      (∀ c ∈ old.children, ∃ cn, p.heap.get? c = some cn ∧
        (p.replace v).2.heap.get? c = some { cn with parent := some p.heap.length }) ∧
      (∀ parIdx par, old.parent = some parIdx → p.heap.get? parIdx = some par →
        (p.replace v).2.heap.get? parIdx =
          some { par with children := replaceFirst par.children p.node p.heap.length })) := by
  obtain ⟨hi, hcr⟩ := hp
  obtain ⟨old, hold⟩ := reach_get hi hcr
  have holdG : p.heap[p.node]? = some old := by
    rw [← List.get?_eq_getElem?]
    exact hold
  have holdLt : p.node < p.heap.length := hi.reachLt _ hcr
  set L := p.heap.length with hL
  have hchN : old.children.Nodup := hi.nodup _ old hcr hold
  have hchGet : ∀ c ∈ old.children, ∃ cn, p.heap.get? c = some cn ∧ cn.parent = some p.node :=
    hi.back _ old hcr hold
  have hchLt : ∀ c ∈ old.children, c < L := by
    intro c hc
    obtain ⟨cn, hcn, -⟩ := hchGet c hc
    obtain ⟨hlt, -⟩ := List.get?_eq_some.mp hcn
    omega
  have hnoself : p.node ∉ old.children := fun hmem =>
    hi.acyc _ hcr (.single ⟨old, hold, hmem⟩)
  rcases hop : old.parent with _ | parIdx
  · -- the replaced node is the root (a reachable node with no parent)
    have hr : p.node = p.root := by
      rcases hcr.inv with h | ⟨pp, hpp, pn, hgpn, hmem⟩
      · exact h
      · obtain ⟨cn2, hcn2, hparent⟩ := hi.back pp pn hpp hgpn p.node hmem
        rw [hold] at hcn2
        cases (Option.some.injEq _ _).mp hcn2
        rw [hop] at hparent
        cases hparent
    set nn : PNode V := { p.newNode v with parent := old.parent, children := old.children }
      with hnn
    set h2 : List (PNode V) := old.children.foldl (setParent L) p.heap with hh2
    set h' : List (PNode V) := h2 ++ [nn] with hh'
    have hrepl : p.replace v =
        (some old.value,
         { p with heap := h', root := if p.node = p.root then L else p.root, node := L }) := by
      simp [Parser.replace, holdG, hop, hh', hh2, hnn]
    have hlen2 : h2.length = L := by
      rw [hh2, foldl_setParent_length]
    have hlen' : h'.length = L + 1 := by
      rw [hh']
      simp [hlen2]
    have gNew : h'.get? L = some nn := by
      rw [hh', List.get?_append_right (by rw [hlen2])]
      simp [hlen2]
    have gMem : ∀ c ∈ old.children,
        h'.get? c = (p.heap.get? c).map (fun cn => { cn with parent := some L }) := by
      intro c hc
      rw [hh', List.get?_append (by rw [hlen2]; exact hchLt c hc), hh2,
          foldl_setParent_mem _ _ _ _ hchN hc]
    have gOther : ∀ i, i ∉ old.children → i < L → h'.get? i = p.heap.get? i := by
      intro i hni hlt
      rw [hh', List.get?_append (by rw [hlen2]; exact hlt), hh2,
          foldl_setParent_not_mem _ _ _ _ hni]
    -- no reachable node has `p.node` (the old root) among its children
    have hchildNotNode : ∀ q qn, Reach p.heap p.root q → p.heap.get? q = some qn →
        ∀ c ∈ qn.children, c ≠ p.node := by
      intro q qn hq hg c hc hcn
      obtain ⟨cn2, hcn2, hparent⟩ := hi.back q qn hq hg c hc
      rw [hcn, hold] at hcn2
      cases (Option.some.injEq _ _).mp hcn2
      rw [hop] at hparent
      cases hparent
    have hdown : ∀ n, Reach h' L n →
        n = L ∨ (Reach p.heap p.root n ∧ n ≠ p.node) := by
      intro n hn
      induction hn with
      | refl => exact Or.inl rfl
      | child hq hs ih =>
        obtain ⟨pn, hg, hc⟩ := hs
        rename_i q c
        rcases ih with rfl | ⟨hqh, hqn⟩
        · rw [gNew] at hg
          cases (Option.some.injEq _ _).mp hg
          have hcold : c ∈ old.children := by simpa [hnn] using hc
          exact Or.inr ⟨hcr.child ⟨old, hold, hcold⟩,
            fun hx => hnoself (by rw [← hx]; exact hcold)⟩
        · have hqLt : q < L := hi.reachLt q hqh
          by_cases hqmem : q ∈ old.children
          · rw [gMem q hqmem] at hg
            obtain ⟨qn, hqg, -⟩ := hchGet q hqmem
            rw [hqg] at hg
            cases (Option.some.injEq _ _).mp hg
            have hcq : c ∈ qn.children := hc
            exact Or.inr ⟨hqh.child ⟨qn, hqg, hcq⟩, hchildNotNode q qn hqh hqg c hcq⟩
          · rw [gOther q hqmem hqLt] at hg
            exact Or.inr ⟨hqh.child ⟨pn, hg, hc⟩, hchildNotNode q pn hqh hg c hc⟩
    have hinv : TreeInv h' L := by
      refine ⟨?_, ?_, ?_, ?_, ?_, ?_⟩
      · rw [hlen']
        omega
      · intro rn hg
        rw [gNew] at hg
        cases (Option.some.injEq _ _).mp hg
        simp [hnn, hop]
      · intro n hn
        rw [hlen']
        rcases hdown n hn with rfl | ⟨hr2, -⟩
        · omega
        · have := hi.reachLt n hr2
          omega
      · intro q pn hq hg c hc
        rcases hdown q hq with rfl | ⟨hqh, hqn⟩
        · rw [gNew] at hg
          cases (Option.some.injEq _ _).mp hg
          have hcold : c ∈ old.children := by simpa [hnn] using hc
          obtain ⟨cn, hcn, hpar⟩ := hchGet c hcold
          refine ⟨{ cn with parent := some L }, ?_, rfl⟩
          rw [gMem c hcold, hcn]
          rfl
        · have hqLt : q < L := hi.reachLt q hqh
          have hqget : ∃ qn0, p.heap.get? q = some qn0 ∧ pn.children = qn0.children := by
            by_cases hqmem : q ∈ old.children
            · obtain ⟨qn0, hqg, -⟩ := hchGet q hqmem
              rw [gMem q hqmem, hqg] at hg
              cases (Option.some.injEq _ _).mp hg
              exact ⟨qn0, hqg, rfl⟩
            · rw [gOther q hqmem hqLt] at hg
              exact ⟨pn, hg, rfl⟩
          obtain ⟨qn0, hqg, hch⟩ := hqget
          rw [hch] at hc
          obtain ⟨cn, hcn, hpar⟩ := hi.back q qn0 hqh hqg c hc
          have hcLt : c < L := by
            obtain ⟨hlt, -⟩ := List.get?_eq_some.mp hcn
            omega
          by_cases hcmem : c ∈ old.children
          · exfalso
            obtain ⟨cn2, hcn2, hpar2⟩ := hchGet c hcmem
            rw [hcn] at hcn2
            cases (Option.some.injEq _ _).mp hcn2
            rw [hpar] at hpar2
            exact hqn ((Option.some.injEq _ _).mp hpar2)
          · exact ⟨cn, by rw [gOther c hcmem hcLt]; exact hcn, hpar⟩
      · intro q pn hq hg
        rcases hdown q hq with rfl | ⟨hqh, hqn⟩
        · rw [gNew] at hg
          cases (Option.some.injEq _ _).mp hg
          simpa [hnn] using hchN
        · have hqLt : q < L := hi.reachLt q hqh
          by_cases hqmem : q ∈ old.children
          · obtain ⟨qn0, hqg, -⟩ := hchGet q hqmem
            rw [gMem q hqmem, hqg] at hg
            cases (Option.some.injEq _ _).mp hg
            exact hi.nodup q qn0 hqh hqg
          · rw [gOther q hqmem hqLt] at hg
            exact hi.nodup q pn hqh hg
      · intro n hn htg
        have hmap : ∀ a b, Reach h' L a → childStep h' a b →
            childStep p.heap (if a = L then p.node else a) (if b = L then p.node else b) := by
          intro a b ha hs
          obtain ⟨pn, hg, hc⟩ := hs
          rcases hdown a ha with rfl | ⟨hah, han⟩
          · rw [gNew] at hg
            cases (Option.some.injEq _ _).mp hg
            have hbold : b ∈ old.children := by simpa [hnn] using hc
            rw [if_pos rfl, if_neg (by have := hchLt b hbold; omega)]
            exact ⟨old, hold, hbold⟩
          · have haLt : a < L := hi.reachLt a hah
            rw [if_neg (by omega)]
            have hget : ∃ an0, p.heap.get? a = some an0 ∧ pn.children = an0.children := by
              by_cases hamem : a ∈ old.children
              · obtain ⟨an0, hag, -⟩ := hchGet a hamem
                rw [gMem a hamem, hag] at hg
                cases (Option.some.injEq _ _).mp hg
                exact ⟨an0, hag, rfl⟩
              · rw [gOther a hamem haLt] at hg
                exact ⟨pn, hg, rfl⟩
            obtain ⟨an0, hag, hch⟩ := hget
            rw [hch] at hc
            have hbLt : b < L := by
              obtain ⟨cn, hcn, -⟩ := hi.back a an0 hah hag b hc
              obtain ⟨hlt, -⟩ := List.get?_eq_some.mp hcn
              omega
            rw [if_neg (by omega)]
            exact ⟨an0, hag, hc⟩
        have hmapped := transGen_map (fun m => if m = L then p.node else m)
          (fun a b ha hs => ha.child hs) hmap n n hn htg
        dsimp only at hmapped
        rcases hdown n hn with rfl | ⟨hnh, -⟩
        · rw [if_pos rfl] at hmapped
          exact hi.acyc p.node hcr hmapped
        · have hnLt : n < L := hi.reachLt n hnh
          rw [if_neg (by omega)] at hmapped
          exact hi.acyc n hnh hmapped
    refine ⟨?_, ?_, ?_, ?_, ?_⟩
    · rw [hrepl]
      refine ⟨?_, ?_⟩
      · dsimp only
        rw [if_pos hr]
        exact hinv
      · dsimp only
        rw [if_pos hr]
        exact .refl
    · rw [hrepl]
    · intro h
      rw [hrepl]
      dsimp only
      rw [if_pos h]
    · intro hne
      exact absurd hr hne
    · intro old2 hold2
      rw [hold] at hold2
      cases (Option.some.injEq _ _).mp hold2
      refine ⟨by rw [hrepl], ?_, ?_, ?_⟩
      · rw [hrepl]
        dsimp only
        exact gNew
      · intro c hc
        obtain ⟨cn, hcn, -⟩ := hchGet c hc
        refine ⟨cn, hcn, ?_⟩
        rw [hrepl]
        dsimp only
        rw [gMem c hc, hcn]
        rfl
      · intro parIdx par hpp hgp
        rw [hop] at hpp
        cases hpp
  · -- the replaced node has a parent: splice into the parent's children
    have hne_root : p.node ≠ p.root := by
      intro hx
      have hrp := hi.rootParent old (by rw [← hx]; exact hold)
      rw [hop] at hrp
      cases hrp
    -- the parent index is reachable and lists `p.node` among its children
    obtain ⟨par, hgp, hmemPar, hppar⟩ :
        ∃ par, p.heap.get? parIdx = some par ∧ p.node ∈ par.children ∧
          Reach p.heap p.root parIdx := by
      rcases hcr.inv with h | ⟨pp, hpp, pn0, hgpn0, hmem0⟩
      · exact absurd h hne_root
      · obtain ⟨cn2, hcn2, hparent⟩ := hi.back pp pn0 hpp hgpn0 p.node hmem0
        rw [hold] at hcn2
        cases (Option.some.injEq _ _).mp hcn2
        rw [hop] at hparent
        cases (Option.some.injEq _ _).mp hparent
        exact ⟨pn0, hgpn0, hmem0, hpp⟩
    have hgpG : p.heap[parIdx]? = some par := by
      rw [← List.get?_eq_getElem?]
      exact hgp
    have hparLt : parIdx < L := hi.reachLt _ hppar
    have hparNodup : par.children.Nodup := hi.nodup _ _ hppar hgp
    have hparNe : parIdx ≠ p.node := by
      intro hx
      apply hnoself
      have hpo : par = old := by
        rw [hx, hold] at hgp
        exact ((Option.some.injEq _ _).mp hgp).symm
      rw [← hpo]
      exact hmemPar
    have hparNotChild : parIdx ∉ old.children := by
      intro hmem
      exact hi.acyc p.node hcr
        (Relation.TransGen.tail (.single ⟨old, hold, hmem⟩) ⟨par, hgp, hmemPar⟩)
    have hLnotPar : L ∉ par.children := by
      intro hmem
      obtain ⟨cn, hcn, -⟩ := hi.back _ par hppar hgp L hmem
      obtain ⟨hlt, -⟩ := List.get?_eq_some.mp hcn
      omega
    -- only the parent lists the replaced node as a child
    have honlyPar : ∀ q qn, Reach p.heap p.root q → p.heap.get? q = some qn →
        p.node ∈ qn.children → q = parIdx := by
      intro q qn hq hg hmem
      obtain ⟨cn2, hcn2, hparent⟩ := hi.back q qn hq hg p.node hmem
      rw [hold] at hcn2
      cases (Option.some.injEq _ _).mp hcn2
      rw [hop] at hparent
      exact ((Option.some.injEq _ _).mp hparent).symm
    set nn : PNode V := { p.newNode v with parent := old.parent, children := old.children }
      with hnn
    set h1 : List (PNode V) :=
      p.heap.set parIdx { par with children := replaceFirst par.children p.node L }
      with hh1
    set h2 : List (PNode V) := old.children.foldl (setParent L) h1 with hh2
    set h' : List (PNode V) := h2 ++ [nn] with hh'
    have hrepl : p.replace v =
        (some old.value,
         { p with heap := h', root := if p.node = p.root then L else p.root, node := L }) := by
      simp [Parser.replace, holdG, hop, hgpG, hh', hh2, hh1, hnn]
    have hlen1 : h1.length = L := by
      rw [hh1, List.length_set]
    have hlen2 : h2.length = L := by
      rw [hh2, foldl_setParent_length, hlen1]
    have hlen' : h'.length = L + 1 := by
      rw [hh']
      simp [hlen2]
    have g1Par : h1.get? parIdx =
        some { par with children := replaceFirst par.children p.node L } := by
      rw [hh1, List.get?_set_eq, hgp]
      rfl
    have g1Other : ∀ i, i ≠ parIdx → h1.get? i = p.heap.get? i := by
      intro i hne
      rw [hh1, List.get?_set_ne _ _ (Ne.symm hne)]
    have gNew : h'.get? L = some nn := by
      rw [hh', List.get?_append_right (by rw [hlen2])]
      simp [hlen2]
    have gPar : h'.get? parIdx =
        some { par with children := replaceFirst par.children p.node L } := by
      rw [hh', List.get?_append (by rw [hlen2]; exact hparLt), hh2,
          foldl_setParent_not_mem _ _ _ _ hparNotChild, g1Par]
    have gMem : ∀ c ∈ old.children,
        h'.get? c = (p.heap.get? c).map (fun cn => { cn with parent := some L }) := by
      intro c hc
      have hcP : c ≠ parIdx := fun hx => hparNotChild (by rw [← hx]; exact hc)
      rw [hh', List.get?_append (by rw [hlen2]; exact hchLt c hc), hh2,
          foldl_setParent_mem _ _ _ _ hchN hc, g1Other c hcP]
    have gOther : ∀ i, i ∉ old.children → i ≠ parIdx → i < L →
        h'.get? i = p.heap.get? i := by
      intro i hni hnp hlt
      rw [hh', List.get?_append (by rw [hlen2]; exact hlt), hh2,
          foldl_setParent_not_mem _ _ _ _ hni, g1Other i hnp]
    -- children lists carried over unchanged for nodes other than the parent
    have hkeep : ∀ q pn, Reach p.heap p.root q → q ≠ p.node → q ≠ parIdx →
        h'.get? q = some pn →
        ∃ qn0, p.heap.get? q = some qn0 ∧ pn.children = qn0.children := by
      intro q pn hqh hqn hqp hg
      have hqLt : q < L := hi.reachLt q hqh
      by_cases hqmem : q ∈ old.children
      · obtain ⟨qn0, hqg, -⟩ := hchGet q hqmem
        rw [gMem q hqmem, hqg] at hg
        cases (Option.some.injEq _ _).mp hg
        exact ⟨qn0, hqg, rfl⟩
      · rw [gOther q hqmem hqp hqLt] at hg
        exact ⟨pn, hg, rfl⟩
    have hup : ∀ n, Reach p.heap p.root n →
        Reach h' p.root (if n = p.node then L else n) := by
      intro n hn
      induction hn with
      | refl =>
        rw [if_neg (fun hx => hne_root hx.symm)]
        exact .refl
      | child hq hs ih =>
        obtain ⟨pn, hg, hc⟩ := hs
        rename_i q c
        by_cases hcn : c = p.node
        · subst hcn
          have hqp : q = parIdx := honlyPar q pn hq hg hc
          subst hqp
          rw [if_pos rfl]
          rw [if_neg hparNe] at ih
          exact ih.child ⟨_, gPar, replaceFirst_mem_new _ _ _
            (by
              have hpq : pn = par := by
                rw [hgp] at hg
                exact ((Option.some.injEq _ _).mp hg).symm
              rw [← hpq]
              exact hc)⟩
        · rw [if_neg hcn]
          by_cases hqn : q = p.node
          · subst hqn
            rw [if_pos rfl] at ih
            rw [hold] at hg
            cases (Option.some.injEq _ _).mp hg
            exact ih.child ⟨nn, gNew, by simpa [hnn] using hc⟩
          · rw [if_neg hqn] at ih
            by_cases hqp : q = parIdx
            · subst hqp
              have hpq : pn = par := by
                rw [hgp] at hg
                exact ((Option.some.injEq _ _).mp hg).symm
              subst hpq
              exact ih.child ⟨_, gPar, replaceFirst_mem_old _ _ _ _ hc hcn⟩
            · have hqLt : q < L := hi.reachLt q hq
              by_cases hqmem : q ∈ old.children
              · refine ih.child ⟨{ pn with parent := some L }, ?_, hc⟩
                rw [gMem q hqmem, hg]
                rfl
              · exact ih.child ⟨pn, by rw [gOther q hqmem hqp hqLt]; exact hg, hc⟩
    have hdown : ∀ n, Reach h' p.root n →
        n = L ∨ (Reach p.heap p.root n ∧ n ≠ p.node) := by
      intro n hn
      induction hn with
      | refl => exact Or.inr ⟨.refl, fun hx => hne_root hx.symm⟩
      | child hq hs ih =>
        obtain ⟨pn, hg, hc⟩ := hs
        rename_i q c
        rcases ih with rfl | ⟨hqh, hqn⟩
        · rw [gNew] at hg
          cases (Option.some.injEq _ _).mp hg
          have hcold : c ∈ old.children := by simpa [hnn] using hc
          exact Or.inr ⟨hcr.child ⟨old, hold, hcold⟩,
            fun hx => hnoself (by rw [← hx]; exact hcold)⟩
        · by_cases hqp : q = parIdx
          · subst hqp
            rw [gPar] at hg
            cases (Option.some.injEq _ _).mp hg
            rcases replaceFirst_mem _ _ _ _ hparNodup hmemPar hc with rfl | ⟨hcp, hcn⟩
            · exact Or.inl rfl
            · exact Or.inr ⟨hqh.child ⟨par, hgp, hcp⟩, hcn⟩
          · obtain ⟨qn0, hqg, hch⟩ := hkeep q pn hqh hqn hqp hg
            rw [hch] at hc
            refine Or.inr ⟨hqh.child ⟨qn0, hqg, hc⟩, ?_⟩
            intro hx
            exact hqp (honlyPar q qn0 hqh hqg (by rw [← hx]; exact hc))
    have hinv : TreeInv h' p.root := by
      refine ⟨?_, ?_, ?_, ?_, ?_, ?_⟩
      · rw [hlen']
        have := hi.rootLt
        omega
      · intro rn hg
        by_cases hrp : p.root = parIdx
        · rw [hrp, gPar] at hg
          cases (Option.some.injEq _ _).mp hg
          exact hi.rootParent par (by rw [hrp]; exact hgp)
        · have hrootNotChild : p.root ∉ old.children := by
            intro hmem
            obtain ⟨cn, hcn, hpar⟩ := hchGet _ hmem
            have := hi.rootParent cn hcn
            rw [this] at hpar
            cases hpar
          rw [gOther _ hrootNotChild hrp hi.rootLt] at hg
          exact hi.rootParent rn hg
      · intro n hn
        rw [hlen']
        rcases hdown n hn with rfl | ⟨hr2, -⟩
        · omega
        · have := hi.reachLt n hr2
          omega
      · intro q pn hq hg c hc
        rcases hdown q hq with rfl | ⟨hqh, hqn⟩
        · rw [gNew] at hg
          cases (Option.some.injEq _ _).mp hg
          have hcold : c ∈ old.children := by simpa [hnn] using hc
          obtain ⟨cn, hcn, -⟩ := hchGet c hcold
          refine ⟨{ cn with parent := some L }, ?_, rfl⟩
          rw [gMem c hcold, hcn]
          rfl
        · by_cases hqp : q = parIdx
          · subst hqp
            rw [gPar] at hg
            cases (Option.some.injEq _ _).mp hg
            rcases replaceFirst_mem _ _ _ _ hparNodup hmemPar hc with rfl | ⟨hcp, hcn⟩
            · refine ⟨nn, gNew, ?_⟩
              show nn.parent = some q
              rw [hnn]
              show old.parent = some q
              exact hop
            · obtain ⟨cn0, hcn0, hpar0⟩ := hi.back q par hqh hgp c hcp
              have hcLt : c < L := by
                obtain ⟨hlt, -⟩ := List.get?_eq_some.mp hcn0
                omega
              have hcNe : c ≠ q := by
                intro hx
                exact hi.acyc q hqh (.single ⟨par, hgp, by rw [← hx]; exact hcp⟩)
              have hcNotOld : c ∉ old.children := by
                intro hmem
                obtain ⟨cn1, hcn1, hpar1⟩ := hchGet c hmem
                rw [hcn0] at hcn1
                cases (Option.some.injEq _ _).mp hcn1
                rw [hpar0] at hpar1
                exact hparNe ((Option.some.injEq _ _).mp hpar1)
              exact ⟨cn0, by rw [gOther c hcNotOld hcNe hcLt]; exact hcn0, hpar0⟩
          · obtain ⟨qn0, hqg, hch⟩ := hkeep q pn hqh hqn hqp hg
            rw [hch] at hc
            obtain ⟨cn, hcn, hpar⟩ := hi.back q qn0 hqh hqg c hc
            have hcLt : c < L := by
              obtain ⟨hlt, -⟩ := List.get?_eq_some.mp hcn
              omega
            by_cases hcq : c = parIdx
            · subst hcq
              refine ⟨{ par with children := replaceFirst par.children p.node L }, gPar, ?_⟩
              show par.parent = some q
              have hpq : cn = par := by
                rw [hgp] at hcn
                exact ((Option.some.injEq _ _).mp hcn).symm
              rw [← hpq]
              exact hpar
            · have hcNotOld : c ∉ old.children := by
                intro hmem
                obtain ⟨cn1, hcn1, hpar1⟩ := hchGet c hmem
                rw [hcn] at hcn1
                cases (Option.some.injEq _ _).mp hcn1
                rw [hpar] at hpar1
                exact hqn ((Option.some.injEq _ _).mp hpar1)
              exact ⟨cn, by rw [gOther c hcNotOld hcq hcLt]; exact hcn, hpar⟩
      · intro q pn hq hg
        rcases hdown q hq with rfl | ⟨hqh, hqn⟩
        · rw [gNew] at hg
          cases (Option.some.injEq _ _).mp hg
          simpa [hnn] using hchN
        · by_cases hqp : q = parIdx
          · subst hqp
            rw [gPar] at hg
            cases (Option.some.injEq _ _).mp hg
            exact replaceFirst_nodup _ _ _ hparNodup hLnotPar
          · obtain ⟨qn0, hqg, hch⟩ := hkeep q pn hqh hqn hqp hg
            rw [hch]
            exact hi.nodup q qn0 hqh hqg
      · intro n hn htg
        have hmap : ∀ a b, Reach h' p.root a → childStep h' a b →
            childStep p.heap (if a = L then p.node else a) (if b = L then p.node else b) := by
          intro a b ha hs
          obtain ⟨pn, hg, hc⟩ := hs
          rcases hdown a ha with rfl | ⟨hah, han⟩
          · rw [gNew] at hg
            cases (Option.some.injEq _ _).mp hg
            have hbold : b ∈ old.children := by simpa [hnn] using hc
            rw [if_pos rfl, if_neg (by have := hchLt b hbold; omega)]
            exact ⟨old, hold, hbold⟩
          · have haLt : a < L := hi.reachLt a hah
            rw [if_neg (by omega)]
            by_cases hap : a = parIdx
            · subst hap
              rw [gPar] at hg
              cases (Option.some.injEq _ _).mp hg
              rcases replaceFirst_mem _ _ _ _ hparNodup hmemPar hc with rfl | ⟨hcp, hcn⟩
              · rw [if_pos rfl]
                exact ⟨par, hgp, hmemPar⟩
              · have hbLt : b < L := by
                  obtain ⟨cn, hcn2, -⟩ := hi.back a par hah hgp b hcp
                  obtain ⟨hlt, -⟩ := List.get?_eq_some.mp hcn2
                  omega
                rw [if_neg (by omega)]
                exact ⟨par, hgp, hcp⟩
            · obtain ⟨an0, hag, hch⟩ := hkeep a pn hah han hap hg
              rw [hch] at hc
              have hbLt : b < L := by
                obtain ⟨cn, hcn2, -⟩ := hi.back a an0 hah hag b hc
                obtain ⟨hlt, -⟩ := List.get?_eq_some.mp hcn2
                omega
              rw [if_neg (by omega)]
              exact ⟨an0, hag, hc⟩
        have hmapped := transGen_map (fun m => if m = L then p.node else m)
          (fun a b ha hs => ha.child hs) hmap n n hn htg
        dsimp only at hmapped
        rcases hdown n hn with rfl | ⟨hnh, -⟩
        · rw [if_pos rfl] at hmapped
          exact hi.acyc p.node hcr hmapped
        · have hnLt : n < L := hi.reachLt n hnh
          rw [if_neg (by omega)] at hmapped
          exact hi.acyc n hnh hmapped
    have hcursor : Reach h' p.root L := by
      have hpar' := hup parIdx hppar
      rw [if_neg hparNe] at hpar'
      exact hpar'.child ⟨_, gPar, replaceFirst_mem_new _ _ _ hmemPar⟩
    refine ⟨?_, ?_, ?_, ?_, ?_⟩
    · rw [hrepl]
      refine ⟨?_, ?_⟩
      · dsimp only
        rw [if_neg hne_root]
        exact hinv
      · dsimp only
        rw [if_neg hne_root]
        exact hcursor
    · rw [hrepl]
    · intro h
      exact absurd h hne_root
    · intro hne
      rw [hrepl]
      dsimp only
      rw [if_neg hne_root]
    · intro old2 hold2
      rw [hold] at hold2
      cases (Option.some.injEq _ _).mp hold2
      refine ⟨by rw [hrepl], ?_, ?_, ?_⟩
      · rw [hrepl]
        dsimp only
        exact gNew
      · intro c hc
        obtain ⟨cn, hcn, -⟩ := hchGet c hc
        refine ⟨cn, hcn, ?_⟩
        rw [hrepl]
        dsimp only
        rw [gMem c hc, hcn]
        rfl
      · intro parIdx2 par2 hpp2 hgp2
        rw [hop] at hpp2
        cases (Option.some.injEq _ _).mp hpp2
        have hp2 : par2 = par := by
          rw [hgp] at hgp2
          exact ((Option.some.injEq _ _).mp hgp2).symm
        subst hp2
        rw [hrepl]
        dsimp only
        exact gPar

/-- A fresh parser satisfies the parser invariant: its heap is the single
root node with no parent and no children. -/
theorem newParser_pinv {V : Type} [Inhabited V] (stream : Nat → Token) :
    PInv (NewParser V stream) := by
  have hg0 : ∀ {a : Nat} {pn : PNode V},
      (NewParser V stream).heap.get? a = some pn →
      a = 0 ∧ pn.children = [] ∧ pn.parent = none := by
    intro a pn hg
    match a with
    | 0 =>
      cases (Option.some.injEq _ _).mp hg
      exact ⟨rfl, rfl, rfl⟩
    | n + 1 => exact Option.noConfusion hg
  have hstep : ∀ a b, ¬ childStep (NewParser V stream).heap a b := by
    intro a b hs
    obtain ⟨pn, hg, hc⟩ := hs
    obtain ⟨-, hch, -⟩ := hg0 hg
    rw [hch] at hc
    cases hc
  have hreach : ∀ n, Reach (NewParser V stream).heap (NewParser V stream).root n →
      n = 0 := by
    intro n h
    induction h with
    | refl => rfl
    | child hq hs ih => exact absurd hs (hstep _ _)
  refine ⟨⟨?_, ?_, ?_, ?_, ?_, ?_⟩, .refl⟩
  · exact Nat.zero_lt_one
  · intro rn hg
    exact (hg0 hg).2.2
  · intro n hn
    rw [hreach n hn]
    exact Nat.zero_lt_one
  · intro q pn hq hg c hc
    obtain ⟨-, hch, -⟩ := hg0 hg
    rw [hch] at hc
    cases hc
  · intro q pn hq hg
    obtain ⟨-, hch, -⟩ := hg0 hg
    rw [hch]
    exact List.nodup_nil
  · intro n hn htg
    obtain ⟨c, hs⟩ := transGen_head htg
    exact absurd hs (hstep _ _)

/-- Claim C8: for every node reachable from the parse-tree root, the node
occurs exactly once in its parent's children and the root has no parent
(`ClaimInv`); a fresh parser satisfies the underlying tree invariant
(`PInv`), each tree operation — `Node`, `Push`, `Climb`, `Replace` —
preserves it, so the link invariant holds after each; and `Replace`
splices the new node over the old node's occurrence in its parent's child
list (`replaceFirst` — the unique occurrence by the invariant), hands the
old node's children to the new node in order with their parent pointers
moved to it, and makes the new node the root exactly when the old node
was the root (and the current node in every case). -/
theorem tree_link_invariant {V : Type} [Inhabited V] (stream : Nat → Token)
    (p : Parser V) (v : V) (hp : PInv p) :
    PInv (NewParser V stream) ∧
    ClaimInv p.heap p.root ∧
    (PInv (p.nodeOp v).2 ∧ ClaimInv (p.nodeOp v).2.heap (p.nodeOp v).2.root) ∧
    (PInv (p.push v).2 ∧ ClaimInv (p.push v).2.heap (p.push v).2.root) ∧
    (PInv p.climb.2 ∧ ClaimInv p.climb.2.heap p.climb.2.root) ∧
    (PInv (p.replace v).2 ∧ ClaimInv (p.replace v).2.heap (p.replace v).2.root) ∧
    (p.replace v).2.node = p.heap.length ∧
    (p.node = p.root → (p.replace v).2.root = p.heap.length) ∧
    (p.node ≠ p.root → (p.replace v).2.root = p.root) ∧
    (∀ old, p.heap.get? p.node = some old →
      (p.replace v).2.heap.get? p.heap.length =
        some { p.newNode v with parent := old.parent, children := old.children } ∧
      (∀ c ∈ old.children, ∃ cn, p.heap.get? c = some cn ∧
        (p.replace v).2.heap.get? c = some { cn with parent := some p.heap.length }) ∧
      (∀ parIdx par, old.parent = some parIdx → p.heap.get? parIdx = some par →
        (p.replace v).2.heap.get? parIdx =
          some { par with children := replaceFirst par.children p.node p.heap.length })) := by
  obtain ⟨hno1, hno2, hno3, hnoR, hnoN, hnoI⟩ := nodeOp_spec p v hp
  obtain ⟨hclP, hclH, hclR, -⟩ := climb_spec p hp
  obtain ⟨hrpP, hrn, hrr1, hrr2, hrold⟩ := replace_spec p v hp
  have hPnode : PInv (p.nodeOp v).2 := by
    unfold PInv
    rw [hnoR, hnoN]
    exact ⟨hno1, hno2⟩
  have hPpush : PInv (p.push v).2 := by
    unfold PInv Parser.push
    dsimp only
    rw [hnoR, hnoI]
    exact ⟨hno1, hno3⟩
  refine ⟨newParser_pinv stream, treeInv_claimInv hp.1,
    ⟨hPnode, treeInv_claimInv hPnode.1⟩,
    ⟨hPpush, treeInv_claimInv hPpush.1⟩,
    ⟨hclP, treeInv_claimInv hclP.1⟩,
    ⟨hrpP, treeInv_claimInv hrpP.1⟩,
    hrn, hrr1, hrr2, ?_⟩
  intro old hold
  obtain ⟨-, hgNew, hch, hsp⟩ := hrold old hold
  exact ⟨hgNew, hch, hsp⟩

/-- Concrete check of C8: the fresh parser over the constant `tokA` source
satisfies the tree-link invariant, and it still holds after a `Push` and
after a `Replace` on that parser. -/
theorem tree_link_invariant_witness :
    ClaimInv freshParser.heap freshParser.root ∧
    ClaimInv (freshParser.push "x").2.heap (freshParser.push "x").2.root ∧
    ClaimInv (freshParser.replace "y").2.heap (freshParser.replace "y").2.root ∧
    (freshParser.replace "y").2.root = 1 := by
  have h := tree_link_invariant (fun _ => tokA) freshParser "x" (newParser_pinv _)
  have h2 := tree_link_invariant (fun _ => tokA) freshParser "y" (newParser_pinv _)
  exact ⟨h.2.1, h.2.2.2.1.2, h2.2.2.2.2.2.1.2, h2.2.2.2.2.2.2.2.1 rfl⟩

end LexParse
